import Mathlib

/-!
# Verification of the forge studio pipeline core

A shallow embedding of the pipeline graph compiler (`pipeline_graph.ts`) and
the run orchestrator (`pipeline_run.ts`) of the studio app, together with
theorems settling the specification claims about them.

Modelling conventions:
* TypeScript strings are Lean `String`s; JavaScript `Set`s are modelled as
  insertion-ordered duplicate-free `List`s; JavaScript `Map`s are modelled as
  association lists with JS `Map.set` semantics (replace in place, else append)
  or, where only lookups are observable, extensionally as functions.
* JavaScript numbers are modelled as `Rat` (exact arithmetic) and millisecond
  timestamps as `Int`.
* `Array.prototype.sort` with a consistent comparator (ECMAScript requires a
  stable sort) is modelled as `List.insertionSort` by the comparator order.
* Asynchronous external calls (task launcher, status provider, clock) are
  modelled by threading an explicit environment of responses; the progress
  sink is modelled by collecting the emitted snapshots into a list.
-/

/-- Node type tag (`PipelineNodeType` in `types.ts`). -/
inductive PipelineNodeType where
  | ingest
  | filter
  | train
  | «export»
  | chat
  | custom
deriving DecidableEq, Repr

/-- `PipelineNode` from `types.ts`.  Canvas coordinates are carried through
unchanged and are irrelevant to the core, so they are modelled as `Rat`. -/
structure PipelineNode where
  id : String
  type : PipelineNodeType
  title : String
  canvas_x : Rat
  canvas_y : Rat
  config : List (String × String)
deriving DecidableEq, Repr

/-- `PipelineEdge` from `types.ts`. -/
structure PipelineEdge where
  id : String
  source_node_id : String
  target_node_id : String
deriving DecidableEq, Repr

/-- `PipelineExecutionPlan` from `pipeline_graph.ts`. -/
structure PipelineExecutionPlan where
  ordered_nodes : List PipelineNode
  reachable_node_ids : List String
deriving DecidableEq, Repr

/-- The dedup key `` `${edge.source_node_id}->${edge.target_node_id}` `` built
on line 22 of `pipeline_graph.ts`. -/
def edgeKey (e : PipelineEdge) : String :=
  e.source_node_id ++ "->" ++ e.target_node_id

/-- The source/target pair of an edge. -/
def edgePair (e : PipelineEdge) : String × String :=
  (e.source_node_id, e.target_node_id)

/-- The edge-retention test of `sanitizePipelineGraph` (lines 16-21): both
endpoints must name nodes and the edge must not be a self loop. -/
def validEdgeB (nodeIds : List String) (e : PipelineEdge) : Bool :=
  nodeIds.contains e.source_node_id && nodeIds.contains e.target_node_id &&
    e.source_node_id != e.target_node_id

/-- The loop of `sanitizePipelineGraph` (lines 15-28).  `uniqueKeys` is the
set of dedup keys of the edges kept so far; it grows exactly when an edge is
kept, mirroring lines 22-27. -/
def sanitizeAux (nodeIds : List String) (uniqueKeys : List String) :
    List PipelineEdge → List PipelineEdge
  | [] => []
  | e :: rest =>
    if validEdgeB nodeIds e && !uniqueKeys.contains (edgeKey e) then
      e :: sanitizeAux nodeIds (edgeKey e :: uniqueKeys) rest
    else
      sanitizeAux nodeIds uniqueKeys rest

/-- `sanitizePipelineGraph` (lines 8-30 of `pipeline_graph.ts`). -/
def sanitizePipelineGraph (nodes : List PipelineNode) (edges : List PipelineEdge) :
    List PipelineEdge :=
  sanitizeAux (nodes.map (·.id)) [] edges

/-- Spec-side helper: an edge is kept at its position when it is valid and no
valid earlier edge has an equal dedup key. -/
def sanitizeSpecKeyAux (nodeIds : List String) (earlier : List PipelineEdge) :
    List PipelineEdge → List PipelineEdge
  | [] => []
  | e :: rest =>
    if validEdgeB nodeIds e &&
        !((earlier.filter (validEdgeB nodeIds)).map edgeKey).contains (edgeKey e) then
      e :: sanitizeSpecKeyAux nodeIds (earlier ++ [e]) rest
    else
      sanitizeSpecKeyAux nodeIds (earlier ++ [e]) rest

/-- Modelled from the amended claim: sanitation keeps the subsequence of edges
that are valid (endpoints present, no self loop) and whose dedup key
`source ++ "->" ++ target` did not occur on any valid earlier edge. -/
def sanitizeSpecKey (nodes : List PipelineNode) (edges : List PipelineEdge) :
    List PipelineEdge :=
  sanitizeSpecKeyAux (nodes.map (·.id)) [] edges

/-- Spec-side helper for the claim as stated: deduplication judged by the
ordered `(source, target)` pair instead of the concatenated key. -/
def sanitizeSpecPairAux (nodeIds : List String) (earlier : List PipelineEdge) :
    List PipelineEdge → List PipelineEdge
  | [] => []
  | e :: rest =>
    if validEdgeB nodeIds e &&
        !((earlier.filter (validEdgeB nodeIds)).map edgePair).contains (edgePair e) then
      e :: sanitizeSpecPairAux nodeIds (earlier ++ [e]) rest
    else
      sanitizeSpecPairAux nodeIds (earlier ++ [e]) rest

/-- The claim's description of sanitation: drop invalid edges and keep only
the first occurrence (in input order) of each ordered `(source, target)`
pair. -/
def sanitizeSpecPair (nodes : List PipelineNode) (edges : List PipelineEdge) :
    List PipelineEdge :=
  sanitizeSpecPairAux (nodes.map (·.id)) [] edges

example :
    sanitizePipelineGraph
      [⟨"a", .ingest, "", 0, 0, []⟩, ⟨"b", .filter, "", 0, 0, []⟩]
      [⟨"e1", "a", "b"⟩, ⟨"e2", "a", "b"⟩, ⟨"e3", "a", "a"⟩, ⟨"e4", "a", "c"⟩] =
      [⟨"e1", "a", "b"⟩] := by decide

example :
    sanitizePipelineGraph
      [⟨"a->", .ingest, "", 0, 0, []⟩, ⟨"b", .filter, "", 0, 0, []⟩,
       ⟨"a", .train, "", 0, 0, []⟩, ⟨"->b", .chat, "", 0, 0, []⟩]
      [⟨"e1", "a->", "b"⟩, ⟨"e2", "a", "->b"⟩] = [⟨"e1", "a->", "b"⟩] := by decide

example :
    sanitizeSpecPair
      [⟨"a->", .ingest, "", 0, 0, []⟩, ⟨"b", .filter, "", 0, 0, []⟩,
       ⟨"a", .train, "", 0, 0, []⟩, ⟨"->b", .chat, "", 0, 0, []⟩]
      [⟨"e1", "a->", "b"⟩, ⟨"e2", "a", "->b"⟩] =
      [⟨"e1", "a->", "b"⟩, ⟨"e2", "a", "->b"⟩] := by decide

/-! ## Sanitizer lemmas -/

theorem sanitizeAux_eq_specKeyAux (nodeIds : List String) :
    ∀ (edges : List PipelineEdge) (keys : List String) (earlier : List PipelineEdge),
    (∀ k, k ∈ keys ↔ k ∈ (earlier.filter (validEdgeB nodeIds)).map edgeKey) →
    sanitizeAux nodeIds keys edges = sanitizeSpecKeyAux nodeIds earlier edges := by
  intro edges
  induction edges with
  | nil => intro keys earlier _; rfl
  | cons e rest ih =>
    intro keys earlier h
    have hck : (keys.contains (edgeKey e)) =
        (((earlier.filter (validEdgeB nodeIds)).map edgeKey).contains (edgeKey e)) := by
      by_cases hk : edgeKey e ∈ keys
      · have := (h (edgeKey e)).1 hk
        simp [List.elem_iff, hk, this]
      · have : edgeKey e ∉ (earlier.filter (validEdgeB nodeIds)).map edgeKey :=
          fun hc => hk ((h (edgeKey e)).2 hc)
        simp [List.elem_iff, hk, this]
    have hfilt : (earlier ++ [e]).filter (validEdgeB nodeIds) =
        earlier.filter (validEdgeB nodeIds) ++ [e].filter (validEdgeB nodeIds) :=
      List.filter_append _ _
    simp only [sanitizeAux, sanitizeSpecKeyAux, hck]
    by_cases hc : (validEdgeB nodeIds e &&
        !(((earlier.filter (validEdgeB nodeIds)).map edgeKey).contains (edgeKey e))) = true
    · rw [if_pos hc, if_pos hc]
      have hv : validEdgeB nodeIds e = true := (Bool.and_eq_true_iff.1 hc).1
      have hone : [e].filter (validEdgeB nodeIds) = [e] := by simp [hv]
      congr 1
      apply ih
      intro k
      rw [hfilt, hone]
      simp only [List.map_append, List.mem_append, List.mem_cons, h k, List.map_cons,
        List.map_nil, List.mem_singleton, List.not_mem_nil, or_false]
      exact or_comm
    · rw [if_neg hc, if_neg hc]
      apply ih
      intro k
      rw [hfilt]
      by_cases hv : validEdgeB nodeIds e = true
      · have hcontains :
            (((earlier.filter (validEdgeB nodeIds)).map edgeKey).contains (edgeKey e)) =
              true := by
          by_contra hcf
          apply hc
          rw [hv, Bool.eq_false_iff.2 hcf]
          rfl
        have hdup : edgeKey e ∈ (earlier.filter (validEdgeB nodeIds)).map edgeKey :=
          List.elem_iff.1 hcontains
        have hone : [e].filter (validEdgeB nodeIds) = [e] := by simp [hv]
        rw [hone]
        simp only [List.map_append, List.mem_append, List.map_cons, List.map_nil,
          List.mem_singleton, List.mem_cons, List.not_mem_nil, or_false, h k]
        constructor
        · intro hk; exact Or.inl hk
        · rintro (hk | rfl)
          · exact hk
          · exact hdup
      · have hnone : [e].filter (validEdgeB nodeIds) = [] := by
          simp [Bool.eq_false_iff.2 hv]
        rw [hnone, List.append_nil]
        exact h k

theorem sanitize_eq_specKey (nodes : List PipelineNode) (edges : List PipelineEdge) :
    sanitizePipelineGraph nodes edges = sanitizeSpecKey nodes edges := by
  apply sanitizeAux_eq_specKeyAux
  intro k
  simp

theorem mem_sanitizeAux_valid (nodeIds : List String) :
    ∀ (edges : List PipelineEdge) (keys : List String) (e : PipelineEdge),
    e ∈ sanitizeAux nodeIds keys edges → validEdgeB nodeIds e = true := by
  intro edges
  induction edges with
  | nil => intro keys e h; simp [sanitizeAux] at h
  | cons a rest ih =>
    intro keys e h
    simp only [sanitizeAux] at h
    split at h
    · rcases List.mem_cons.1 h with rfl | h2
      · rename_i hcond
        exact (Bool.and_eq_true_iff.1 hcond).1
      · exact ih _ _ h2
    · exact ih _ _ h

theorem not_mem_keys_sanitizeAux (nodeIds : List String) :
    ∀ (edges : List PipelineEdge) (keys : List String) (k : String),
    k ∈ keys → k ∉ (sanitizeAux nodeIds keys edges).map edgeKey := by
  intro edges
  induction edges with
  | nil => intro keys k hk; simp [sanitizeAux]
  | cons a rest ih =>
    intro keys k hk
    simp only [sanitizeAux]
    split
    · rename_i hcond
      intro hmem
      rcases List.mem_map.1 hmem with ⟨e, he, hkey⟩
      rcases List.mem_cons.1 he with rfl | he2
      · subst hkey
        have : ¬ (keys.contains (edgeKey e)) = true := by
          simpa using (Bool.and_eq_true_iff.1 hcond).2
        exact this (List.elem_iff.2 hk)
      · exact ih (edgeKey a :: keys) k (List.mem_cons_of_mem _ hk)
          (List.mem_map.2 ⟨e, he2, hkey⟩)
    · exact fun hmem => ih keys k hk hmem

theorem nodup_keys_sanitizeAux (nodeIds : List String) :
    ∀ (edges : List PipelineEdge) (keys : List String),
    ((sanitizeAux nodeIds keys edges).map edgeKey).Nodup := by
  intro edges
  induction edges with
  | nil => intro keys; simp [sanitizeAux]
  | cons a rest ih =>
    intro keys
    simp only [sanitizeAux]
    split
    · simp only [List.map_cons, List.nodup_cons]
      exact ⟨not_mem_keys_sanitizeAux nodeIds rest (edgeKey a :: keys) (edgeKey a)
          (List.mem_cons_self _ _), ih _⟩
    · exact ih keys

theorem sanitizeAux_fixpoint (nodeIds : List String) :
    ∀ (edges : List PipelineEdge) (keys : List String),
    (∀ e ∈ edges, validEdgeB nodeIds e = true) →
    (edges.map edgeKey).Nodup →
    (∀ e ∈ edges, edgeKey e ∉ keys) →
    sanitizeAux nodeIds keys edges = edges := by
  intro edges
  induction edges with
  | nil => intro keys _ _ _; rfl
  | cons a rest ih =>
    intro keys hvalid hnodup hkeys
    have hva : validEdgeB nodeIds a = true := hvalid a (List.mem_cons_self _ _)
    have hka : ¬ (keys.contains (edgeKey a)) = true := by
      intro hc
      exact hkeys a (List.mem_cons_self _ _) (List.elem_iff.1 hc)
    simp only [sanitizeAux, hva, Bool.true_and]
    rw [if_pos (by simpa using hka)]
    congr 1
    apply ih
    · exact fun e he => hvalid e (List.mem_cons_of_mem _ he)
    · exact (List.nodup_cons.1 (by simpa using hnodup)).2
    · intro e he
      simp only [List.mem_cons]
      rintro (h | h)
      · have : edgeKey a ∉ (rest.map edgeKey) :=
          (List.nodup_cons.1 (by simpa using hnodup)).1
        exact this (h ▸ List.mem_map.2 ⟨e, he, rfl⟩)
      · exact hkeys e (List.mem_cons_of_mem _ he) h

theorem validEdgeB_iff (nodeIds : List String) (e : PipelineEdge) :
    validEdgeB nodeIds e = true ↔
      e.source_node_id ∈ nodeIds ∧ e.target_node_id ∈ nodeIds ∧
        e.source_node_id ≠ e.target_node_id := by
  simp [validEdgeB, List.elem_iff, and_assoc]

theorem mem_sanitize_endpoints (nodes : List PipelineNode) (edges : List PipelineEdge)
    (e : PipelineEdge) (he : e ∈ sanitizePipelineGraph nodes edges) :
    e.source_node_id ∈ nodes.map (·.id) ∧ e.target_node_id ∈ nodes.map (·.id) ∧
      e.source_node_id ≠ e.target_node_id :=
  (validEdgeB_iff _ e).1 (mem_sanitizeAux_valid _ _ _ e he)

theorem sanitize_keys_nodup (nodes : List PipelineNode) (edges : List PipelineEdge) :
    ((sanitizePipelineGraph nodes edges).map edgeKey).Nodup :=
  nodup_keys_sanitizeAux _ _ _

theorem sanitize_nodup (nodes : List PipelineNode) (edges : List PipelineEdge) :
    (sanitizePipelineGraph nodes edges).Nodup :=
  (sanitize_keys_nodup nodes edges).of_map

/-- The dedup key of an edge is a function of its source/target pair. -/
def pairKey (p : String × String) : String :=
  p.1 ++ "->" ++ p.2

theorem edgeKey_eq_pairKey (e : PipelineEdge) : edgeKey e = pairKey (edgePair e) := rfl

theorem sanitize_pairs_nodup (nodes : List PipelineNode) (edges : List PipelineEdge) :
    ((sanitizePipelineGraph nodes edges).map edgePair).Nodup := by
  have h := sanitize_keys_nodup nodes edges
  have : (sanitizePipelineGraph nodes edges).map edgeKey =
      ((sanitizePipelineGraph nodes edges).map edgePair).map pairKey := by
    rw [List.map_map]; rfl
  rw [this] at h
  exact h.of_map

/-! ## Claim C4 -/

/-- Input exhibiting the key collision: the dedup key of an edge is the
string `source ++ "->" ++ target`, so the two distinct ordered pairs
`("a->", "b")` and `("a", "->b")` share the key `"a->->b"`. -/
def c4nodes : List PipelineNode :=
  [⟨"a->", .ingest, "", 0, 0, []⟩, ⟨"b", .filter, "", 0, 0, []⟩,
   ⟨"a", .train, "", 0, 0, []⟩, ⟨"->b", .chat, "", 0, 0, []⟩]

/-- Edge list for the C4 counterexample. -/
def c4edges : List PipelineEdge :=
  [⟨"e1", "a->", "b"⟩, ⟨"e2", "a", "->b"⟩]

/-- C4 counterexample: the claim says deduplication is by the ordered
`(source, target)` pair; on this input the second edge has a pair distinct
from the first yet is dropped, because the implementation deduplicates by the
concatenated key `source ++ "->" ++ target` and both edges share the key
`"a->->b"`.  So `sanitizePipelineGraph` is not the pair-deduplicated
subsequence described by the claim. -/
theorem claim_C4_counterexample :
    sanitizePipelineGraph c4nodes c4edges = [⟨"e1", "a->", "b"⟩] ∧
    sanitizeSpecPair c4nodes c4edges =
      [⟨"e1", "a->", "b"⟩, ⟨"e2", "a", "->b"⟩] ∧
    sanitizePipelineGraph c4nodes c4edges ≠ sanitizeSpecPair c4nodes c4edges := by
  refine ⟨by decide, by decide, by decide⟩

/-- C4 (amended): for every node list and edge list, sanitation returns
exactly the subsequence of the input edges obtained by dropping every edge
whose source or target identity is not in the node set, dropping every
self-loop edge, and keeping only the first occurrence (in input order) of
each dedup key `source ++ "->" ++ target` (this coincides with the ordered
`(source, target)` pair whenever node identities do not embed the `"->"`
delimiter); it never raises an error on any input (it is a total
function). -/
theorem claim_C4_sanitize_characterization (nodes : List PipelineNode)
    (edges : List PipelineEdge) :
    sanitizePipelineGraph nodes edges = sanitizeSpecKey nodes edges :=
  sanitize_eq_specKey nodes edges

/-! ## Claim C5 -/

/-- C5: sanitation is idempotent: sanitizing an already-sanitized edge list
(no invalid endpoints, no self loops, pairwise distinct dedup keys) keeps
every edge. -/
theorem claim_C5_sanitize_idempotent (nodes : List PipelineNode)
    (edges : List PipelineEdge) :
    sanitizePipelineGraph nodes (sanitizePipelineGraph nodes edges) =
      sanitizePipelineGraph nodes edges := by
  apply sanitizeAux_fixpoint
  · exact fun e he => mem_sanitizeAux_valid _ _ _ e he
  · exact nodup_keys_sanitizeAux _ _ _
  · simp

/-! ## Reachability (`collectReachableNodeIds`, lines 50-74) -/

/-- `buildOutgoingEdgeMap` (lines 136-147): the bucket of a source id holds
the targets of its edges in input order.  The JS `Map` is only ever read via
`get` (with a missing key acting as an empty bucket), so it is modelled
extensionally. -/
def buildOutgoingEdgeMap (edges : List PipelineEdge) (sourceId : String) : List String :=
  (edges.filter (fun e => e.source_node_id == sourceId)).map (·.target_node_id)

theorem not_contains_iff (l : List String) (a : String) :
    (!l.contains a) = true ↔ a ∉ l := by
  simp [List.elem_iff]

theorem buildOutgoingEdgeMap_eq_nil (edges : List PipelineEdge) (s : String)
    (h : s ∉ edges.map (·.source_node_id)) : buildOutgoingEdgeMap edges s = [] := by
  unfold buildOutgoingEdgeMap
  rw [List.filter_eq_nil_iff.mpr, List.map_nil]
  intro e he
  simp only [beq_iff_eq]
  intro hc
  exact h (List.mem_map.2 ⟨e, he, hc⟩)

theorem buildOutgoingEdgeMap_length_le (edges : List PipelineEdge) (s : String) :
    (buildOutgoingEdgeMap edges s).length ≤ edges.length := by
  unfold buildOutgoingEdgeMap
  rw [List.length_map]
  exact List.length_filter_le _ _

theorem mem_buildOutgoingEdgeMap (edges : List PipelineEdge) (s t : String) :
    t ∈ buildOutgoingEdgeMap edges s ↔
      ∃ e ∈ edges, e.source_node_id = s ∧ e.target_node_id = t := by
  unfold buildOutgoingEdgeMap
  simp only [List.mem_map, List.mem_filter, beq_iff_eq]
  constructor
  · rintro ⟨e, ⟨he, hs⟩, ht⟩; exact ⟨e, he, hs, ht⟩
  · rintro ⟨e, he, hs, ht⟩; exact ⟨e, ⟨he, hs⟩, ht⟩

theorem countP_congr_on (l : List String) (p q : String → Bool)
    (h : ∀ a ∈ l, p a = q a) : l.countP p = l.countP q := by
  induction l with
  | nil => rfl
  | cons a t ih =>
    rw [List.countP_cons, List.countP_cons, h a (List.mem_cons_self _ _),
      ih (fun b hb => h b (List.mem_cons_of_mem _ hb))]

theorem countP_le_on (l : List String) (p q : String → Bool)
    (h : ∀ a ∈ l, p a = true → q a = true) : l.countP p ≤ l.countP q := by
  induction l with
  | nil => exact Nat.le_refl _
  | cons a t ih =>
    have ht := ih (fun b hb => h b (List.mem_cons_of_mem _ hb))
    by_cases hpa : p a = true
    · rw [List.countP_cons_of_pos p t hpa,
        List.countP_cons_of_pos q t (h a (List.mem_cons_self _ _) hpa)]
      omega
    · rw [List.countP_cons_of_neg p t hpa]
      by_cases hqa : q a = true
      · rw [List.countP_cons_of_pos q t hqa]; omega
      · rw [List.countP_cons_of_neg q t hqa]; omega

theorem countP_lt_of_mem_witness (l : List String) (p q : String → Bool)
    (h : ∀ a ∈ l, p a = true → q a = true) (x : String) (hx : x ∈ l)
    (hpx : p x = false) (hqx : q x = true) : l.countP p < l.countP q := by
  induction l with
  | nil => cases hx
  | cons a t ih =>
    rcases List.mem_cons.1 hx with rfl | hxt
    · rw [List.countP_cons_of_neg p t (by rw [hpx]; exact Bool.false_ne_true),
        List.countP_cons_of_pos q t hqx]
      have := countP_le_on t p q (fun b hb => h b (List.mem_cons_of_mem _ hb))
      omega
    · have hlt := ih (fun b hb => h b (List.mem_cons_of_mem _ hb)) hxt
      by_cases hpa : p a = true
      · rw [List.countP_cons_of_pos p t hpa,
          List.countP_cons_of_pos q t (h a (List.mem_cons_self _ _) hpa)]
        omega
      · rw [List.countP_cons_of_neg p t hpa]
        by_cases hqa : q a = true
        · rw [List.countP_cons_of_pos q t hqa]; omega
        · rw [List.countP_cons_of_neg q t hqa]; omega

/-- Termination measure for the reachability loop: the number of unvisited
potential sources, weighted so that visiting a node pays for the stack growth
it can cause, plus the stack length. -/
def collectMeasure (edges : List PipelineEdge) (visited stack : List String) : Nat :=
  ((edges.map (·.source_node_id)).countP (fun s => !visited.contains s)) *
      (edges.length + 1) +
    stack.length

/-- The `while` loop of `collectReachableNodeIds` (lines 57-72).  The stack is
modelled with its top at the head (JS pushes/pops at the array end), so the
`for` loop that pushes the not-yet-visited targets in bucket order appends
their reversal at the head.  The JS truthiness test `!current` also skips the
empty string, which is therefore never visited. -/
def collectLoop (edges : List PipelineEdge) : List String → List String → List String
  | visited, [] => visited
  | visited, current :: rest =>
    if current == "" || visited.contains current then
      collectLoop edges visited rest
    else
      collectLoop edges (visited ++ [current])
        (((buildOutgoingEdgeMap edges current).filter
            (fun t => !(visited ++ [current]).contains t)).reverse ++ rest)
termination_by visited stack => collectMeasure edges visited stack
decreasing_by
  · simp only [collectMeasure, List.length_cons]
    exact Nat.add_lt_add_left (Nat.lt_succ_self _) _
  · rename_i h
    have hne : current ≠ "" := by
      intro hc
      exact h (by simp [hc])
    have hnv : current ∉ visited := by
      intro hc
      exact h (by simp [hc])
    simp only [collectMeasure, List.length_cons]
    by_cases hU : current ∈ edges.map (·.source_node_id)
    · have himp : ∀ a ∈ edges.map (·.source_node_id),
          (!(visited ++ [current]).contains a) = true → (!visited.contains a) = true := by
        intro a _ hpa
        rw [not_contains_iff] at hpa ⊢
        intro hc
        exact hpa (List.mem_append_left _ hc)
      have hlt := countP_lt_of_mem_witness (edges.map (·.source_node_id)) _ _ himp current hU
        (by
          have : current ∈ visited ++ [current] := List.mem_append_right _ (List.mem_singleton.2 rfl)
          simp [List.elem_iff.2 this])
        (by
          rw [not_contains_iff]
          exact hnv)
      have hstack : (((buildOutgoingEdgeMap edges current).filter
          (fun t => !(visited ++ [current]).contains t)).reverse ++ rest).length ≤
            edges.length + rest.length := by
        rw [List.length_append, List.length_reverse]
        have h1 := List.length_filter_le (fun t => !(visited ++ [current]).contains t)
          (buildOutgoingEdgeMap edges current)
        have h2 := buildOutgoingEdgeMap_length_le edges current
        omega
      have hmul : ((edges.map (·.source_node_id)).countP
            (fun s => !(visited ++ [current]).contains s)) * (edges.length + 1) +
            (edges.length + 1) ≤
          ((edges.map (·.source_node_id)).countP (fun s => !visited.contains s)) *
            (edges.length + 1) := by
        have := Nat.mul_le_mul_right (edges.length + 1) (Nat.succ_le_of_lt hlt)
        rwa [Nat.succ_mul] at this
      omega
    · have hcong : ((edges.map (·.source_node_id)).countP
          (fun s => !(visited ++ [current]).contains s)) =
          ((edges.map (·.source_node_id)).countP (fun s => !visited.contains s)) := by
        apply countP_congr_on
        intro a ha
        have hac : a ≠ current := fun hc => hU (hc ▸ ha)
        apply Bool.coe_iff_coe.mp
        rw [not_contains_iff, not_contains_iff]
        constructor
        · intro hna hc
          exact hna (List.mem_append_left _ hc)
        · intro hna hc
          rcases List.mem_append.1 hc with hc | hc
          · exact hna hc
          · exact hac (List.mem_singleton.1 hc)
      rw [hcong, buildOutgoingEdgeMap_eq_nil edges current hU]
      simp only [List.filter_nil, List.reverse_nil, List.nil_append]
      exact Nat.add_lt_add_left (Nat.lt_succ_self _) _

/-- `collectReachableNodeIds` (lines 50-74 of `pipeline_graph.ts`): the
insertion-ordered visited set of the depth-first traversal from the start
node. -/
def collectReachableNodeIds (startNodeId : String) (edges : List PipelineEdge) :
    List String :=
  collectLoop edges [] [startNodeId]

/-- The source/target pairs of an edge list. -/
def edgePairs (edges : List PipelineEdge) : List (String × String) :=
  edges.map edgePair

/-- The set of node ids the traversal of `collectReachableNodeIds` actually
visits: ids connected to the start node by a forward chain of edges all of
whose nodes are non-empty strings (the JS truthiness test `!current` skips
the empty string without visiting it). -/
inductive CodeReach (pairs : List (String × String)) (start : String) : String → Prop where
  | start (h : start ≠ "") : CodeReach pairs start start
  | step {u v : String} (hu : CodeReach pairs start u) (huv : (u, v) ∈ pairs)
      (hv : v ≠ "") : CodeReach pairs start v

theorem CodeReach.ne_empty {pairs : List (String × String)} {start x : String}
    (h : CodeReach pairs start x) : x ≠ "" := by
  cases h with
  | start h => exact h
  | step _ _ hv => exact hv

theorem CodeReach.mem_of_pairs_iff {p1 p2 : List (String × String)} {start x : String}
    (hiff : ∀ q, q ∈ p1 ↔ q ∈ p2) (h : CodeReach p1 start x) : CodeReach p2 start x := by
  induction h with
  | start h => exact .start h
  | step _ huv hv ih => exact .step ih ((hiff _).1 huv) hv

theorem collectLoop_mono (edges : List PipelineEdge) :
    ∀ visited stack, ∀ x ∈ visited, x ∈ collectLoop edges visited stack := by
  intro visited stack
  induction visited, stack using collectLoop.induct edges with
  | case1 visited => intro x hx; rw [collectLoop]; exact hx
  | case2 visited current rest hcond ih =>
    intro x hx
    rw [collectLoop, if_pos hcond]
    exact ih x hx
  | case3 visited current rest hcond ih =>
    intro x hx
    rw [collectLoop, if_neg hcond]
    exact ih x (List.mem_append_left _ hx)

theorem collectLoop_sound (edges : List PipelineEdge) (start : String) :
    ∀ visited stack,
      (∀ v ∈ visited, CodeReach (edgePairs edges) start v) →
      (∀ s ∈ stack, s ≠ "" → CodeReach (edgePairs edges) start s) →
      ∀ x ∈ collectLoop edges visited stack, CodeReach (edgePairs edges) start x := by
  intro visited stack
  induction visited, stack using collectLoop.induct edges with
  | case1 visited =>
    intro hv _ x hx
    rw [collectLoop] at hx
    exact hv x hx
  | case2 visited current rest hcond ih =>
    intro hv hs x hx
    rw [collectLoop, if_pos hcond] at hx
    exact ih hv (fun s hs2 => hs s (List.mem_cons_of_mem _ hs2)) x hx
  | case3 visited current rest hcond ih =>
    intro hv hs x hx
    rw [collectLoop, if_neg hcond] at hx
    have hne : current ≠ "" := by
      intro hc
      exact hcond (by simp [hc])
    have hcur : CodeReach (edgePairs edges) start current :=
      hs current (List.mem_cons_self _ _) hne
    refine ih ?_ ?_ x hx
    · intro v hv2
      rcases List.mem_append.1 hv2 with hv2 | hv2
      · exact hv v hv2
      · rw [List.mem_singleton.1 hv2]
        exact hcur
    · intro s hs2 hsne
      rcases List.mem_append.1 hs2 with hs2 | hs2
      · have hout : s ∈ buildOutgoingEdgeMap edges current := by
          have := List.mem_reverse.1 hs2
          exact (List.mem_filter.1 this).1
        rcases (mem_buildOutgoingEdgeMap edges current s).1 hout with ⟨e, he, hsrc, htgt⟩
        refine CodeReach.step hcur ?_ hsne
        have : edgePair e = (current, s) := by
          rw [edgePair, hsrc, htgt]
        exact this ▸ List.mem_map.2 ⟨e, he, rfl⟩
      · exact hs s (List.mem_cons_of_mem _ hs2) hsne

theorem collectLoop_closed (edges : List PipelineEdge) (start : String) :
    ∀ visited stack,
      (∀ v ∈ visited, ∀ t, (v, t) ∈ edgePairs edges →
        t ∈ visited ∨ t ∈ stack ∨ t = "") →
      (start = "" ∨ start ∈ visited ∨ start ∈ stack) →
      (∀ v ∈ collectLoop edges visited stack, ∀ t, (v, t) ∈ edgePairs edges →
        t ∈ collectLoop edges visited stack ∨ t = "") ∧
      (start = "" ∨ start ∈ collectLoop edges visited stack) := by
  intro visited stack
  induction visited, stack using collectLoop.induct edges with
  | case1 visited =>
    intro hcl hst
    rw [collectLoop]
    constructor
    · intro v hv t ht
      rcases hcl v hv t ht with h | h | h
      · exact Or.inl h
      · cases h
      · exact Or.inr h
    · rcases hst with h | h | h
      · exact Or.inl h
      · exact Or.inr h
      · cases h
  | case2 visited current rest hcond ih =>
    intro hcl hst
    rw [collectLoop, if_pos hcond]
    have hcases : current = "" ∨ current ∈ visited := by
      rcases Bool.or_eq_true_iff.1 hcond with h | h
      · exact Or.inl (by simpa using h)
      · exact Or.inr (List.elem_iff.1 h)
    refine ih ?_ ?_
    · intro v hv t ht
      rcases hcl v hv t ht with h | h | h
      · exact Or.inl h
      · rcases List.mem_cons.1 h with rfl | h2
        · rcases hcases with h3 | h3
          · exact Or.inr (Or.inr h3)
          · exact Or.inl h3
        · exact Or.inr (Or.inl h2)
      · exact Or.inr (Or.inr h)
    · rcases hst with h | h | h
      · exact Or.inl h
      · exact Or.inr (Or.inl h)
      · rcases List.mem_cons.1 h with rfl | h2
        · rcases hcases with h3 | h3
          · exact Or.inl h3
          · exact Or.inr (Or.inl h3)
        · exact Or.inr (Or.inr h2)
  | case3 visited current rest hcond ih =>
    intro hcl hst
    rw [collectLoop, if_neg hcond]
    refine ih ?_ ?_
    · intro v hv t ht
      rcases List.mem_append.1 hv with hv2 | hv2
      · rcases hcl v hv2 t ht with h | h | h
        · exact Or.inl (List.mem_append_left _ h)
        · rcases List.mem_cons.1 h with rfl | h2
          · exact Or.inl (List.mem_append_right _ (List.mem_singleton.2 rfl))
          · exact Or.inr (Or.inl (List.mem_append_right _ h2))
        · exact Or.inr (Or.inr h)
      · have hveq : v = current := List.mem_singleton.1 hv2
        subst hveq
        have hout : t ∈ buildOutgoingEdgeMap edges v := by
          rcases List.mem_map.1 ht with ⟨e, he, hpair⟩
          have hsrc : e.source_node_id = v := congrArg Prod.fst hpair
          have htgt : e.target_node_id = t := congrArg Prod.snd hpair
          exact (mem_buildOutgoingEdgeMap edges v t).2 ⟨e, he, hsrc, htgt⟩
        by_cases hmem : t ∈ visited ++ [v]
        · exact Or.inl hmem
        · refine Or.inr (Or.inl (List.mem_append_left _ ?_))
          rw [List.mem_reverse, List.mem_filter]
          exact ⟨hout, (not_contains_iff _ _).2 hmem⟩
    · rcases hst with h | h | h
      · exact Or.inl h
      · exact Or.inr (Or.inl (List.mem_append_left _ h))
      · rcases List.mem_cons.1 h with rfl | h2
        · exact Or.inr (Or.inl (List.mem_append_right _ (List.mem_singleton.2 rfl)))
        · exact Or.inr (Or.inr (List.mem_append_right _ h2))

theorem collectLoop_nodup (edges : List PipelineEdge) :
    ∀ visited stack, visited.Nodup → (collectLoop edges visited stack).Nodup := by
  intro visited stack
  induction visited, stack using collectLoop.induct edges with
  | case1 visited => intro h; rw [collectLoop]; exact h
  | case2 visited current rest hcond ih =>
    intro h
    rw [collectLoop, if_pos hcond]
    exact ih h
  | case3 visited current rest hcond ih =>
    intro h
    rw [collectLoop, if_neg hcond]
    refine ih ?_
    have hnv : current ∉ visited := by
      intro hc
      exact hcond (by simp [hc])
    simp [List.nodup_append, h, hnv]

/-- Characterization of the DFS: an id is in the visited set exactly when it
is code-reachable from the start. -/
theorem mem_collectReachableNodeIds (edges : List PipelineEdge) (start x : String) :
    x ∈ collectReachableNodeIds start edges ↔ CodeReach (edgePairs edges) start x := by
  constructor
  · intro hx
    refine collectLoop_sound edges start [] [start] ?_ ?_ x hx
    · intro v hv; cases hv
    · intro s hs hne
      rw [List.mem_singleton.1 hs] at hne ⊢
      exact CodeReach.start hne
  · intro hx
    have hcl := collectLoop_closed edges start [] [start]
      (by intro v hv; cases hv)
      (Or.inr (Or.inr (List.mem_singleton.2 rfl)))
    induction hx with
    | start h =>
      rcases hcl.2 with h2 | h2
      · exact absurd h2 h
      · exact h2
    | step hu huv hv ih =>
      rcases hcl.1 _ ih _ huv with h2 | h2
      · exact h2
      · exact absurd h2 hv

theorem collectReachableNodeIds_nodup (edges : List PipelineEdge) (start : String) :
    (collectReachableNodeIds start edges).Nodup :=
  collectLoop_nodup edges [] [start] List.nodup_nil

/-! ## Kahn topological sort (`topologicalSortReachableNodes`, lines 76-134) -/

/-- Lookup in the association-list model of a JS `Map` with `Int` values. -/
def getAssoc (m : List (String × Int)) (k : String) : Option Int :=
  (m.find? (fun p => p.1 == k)).map (·.2)

/-- JS `Map.set`: replace the value in place if the key is present, append
otherwise. -/
def setAssoc : List (String × Int) → String → Int → List (String × Int)
  | [], k, v => [(k, v)]
  | p :: rest, k, v => if p.1 = k then (k, v) :: rest else p :: setAssoc rest k v

/-- `buildStableOrderIndex` (lines 149-153): `forEach` with `Map.set`
overwrites, so an id is mapped to its last position in the node list. -/
def buildStableOrderIndex : List PipelineNode → String → Option Nat
  | [], _ => none
  | n :: rest, x =>
    match buildStableOrderIndex rest x with
    | some i => some (i + 1)
    | none => if n.id = x then some 0 else none

/-- The `stableSort` comparator (lines 155-161) compares stable order indexes,
with a missing id falling back to index 0; ascending order as a relation. -/
def stableLe (oi : String → Option Nat) (a b : String) : Prop :=
  (oi a).getD 0 ≤ (oi b).getD 0

instance (oi : String → Option Nat) : DecidableRel (stableLe oi) := fun _ _ =>
  inferInstanceAs (Decidable (_ ≤ _))

/-- JS `Array.prototype.sort` with the `stableSort` comparator, modelled as a
stable sort ascending by stable order index. -/
def jsSortByIndex (oi : String → Option Nat) (l : List String) : List String :=
  List.insertionSort (stableLe oi) l

/-- The inner `for` loop over a popped node's (sorted) targets
(lines 113-120): decrement each target's indegree and, when it reaches zero,
push the target and re-sort the ready queue. -/
def processTargets (oi : String → Option Nat) :
    List String → List (String × Int) → List String → List (String × Int) × List String
  | [], indegree, queue => (indegree, queue)
  | t :: ts, indegree, queue =>
    let nextIndegree := (getAssoc indegree t).getD 0 - 1
    let indegree2 := setAssoc indegree t nextIndegree
    if nextIndegree = 0 then
      processTargets oi ts indegree2 (jsSortByIndex oi (queue ++ [t]))
    else
      processTargets oi ts indegree2 queue

/-- Termination potential of the Kahn loop state: total positive indegree. -/
def potAssoc (m : List (String × Int)) : Nat :=
  (m.map (fun p => p.2.toNat)).sum

theorem length_jsSortByIndex (oi : String → Option Nat) (l : List String) :
    (jsSortByIndex oi l).length = l.length :=
  List.length_insertionSort _ l

theorem potAssoc_setAssoc_step (m : List (String × Int)) (k : String) :
    potAssoc (setAssoc m k ((getAssoc m k).getD 0 - 1)) +
      (if ((getAssoc m k).getD 0 - 1) = 0 then 1 else 0) ≤ potAssoc m := by
  induction m with
  | nil =>
    simp [getAssoc, setAssoc, potAssoc]
  | cons p rest ih =>
    by_cases hpk : p.1 = k
    · have hget : getAssoc (p :: rest) k = some p.2 := by
        simp [getAssoc, List.find?, beq_iff_eq, hpk]
      rw [hget]
      have hset : setAssoc (p :: rest) k (p.2 - 1) = (k, p.2 - 1) :: rest := by
        simp [setAssoc, hpk]
      simp only [Option.getD_some, hset, potAssoc, List.map_cons, List.sum_cons]
      by_cases h0 : p.2 - 1 = 0
      · rw [if_pos h0]
        omega
      · rw [if_neg h0]
        omega
    · have hbeq : (p.1 == k) = false := beq_eq_false_iff_ne.2 hpk
      have hget : getAssoc (p :: rest) k = getAssoc rest k := by
        simp [getAssoc, List.find?, hbeq]
      have hset : setAssoc (p :: rest) k ((getAssoc rest k).getD 0 - 1) =
          p :: setAssoc rest k ((getAssoc rest k).getD 0 - 1) := by
        simp [setAssoc, hpk]
      rw [hget, hset]
      simp only [potAssoc, List.map_cons, List.sum_cons] at ih ⊢
      omega

theorem processTargets_pot (oi : String → Option Nat) :
    ∀ (ts : List String) (indegree : List (String × Int)) (queue : List String),
    potAssoc (processTargets oi ts indegree queue).1 +
        (processTargets oi ts indegree queue).2.length ≤
      potAssoc indegree + queue.length := by
  intro ts
  induction ts with
  | nil => intro indegree queue; exact Nat.le_refl _
  | cons t ts ih =>
    intro indegree queue
    have hstep := potAssoc_setAssoc_step indegree t
    by_cases h0 : ((getAssoc indegree t).getD 0 - 1) = 0
    · rw [if_pos h0] at hstep
      simp only [processTargets, if_pos h0]
      have := ih (setAssoc indegree t ((getAssoc indegree t).getD 0 - 1))
        (jsSortByIndex oi (queue ++ [t]))
      rw [length_jsSortByIndex, List.length_append] at this
      simp only [List.length_singleton] at this
      omega
    · rw [if_neg h0] at hstep
      simp only [processTargets, if_neg h0]
      have := ih (setAssoc indegree t ((getAssoc indegree t).getD 0 - 1)) queue
      omega

/-- The `while` loop of the Kahn sort (lines 105-121).  The ready queue is
kept sorted by re-sorting after every push; `shift` pops from the head.  The
JS truthiness test `!currentNodeId` skips an empty-string id. -/
def kahnLoop (adjacency : String → List String) (oi : String → Option Nat) :
    List (String × Int) → List String → List String → List String
  | _, [], sorted => sorted
  | indegree, current :: rest, sorted =>
    if current == "" then
      kahnLoop adjacency oi indegree rest sorted
    else
      kahnLoop adjacency oi
        (processTargets oi (jsSortByIndex oi (adjacency current)) indegree rest).1
        (processTargets oi (jsSortByIndex oi (adjacency current)) indegree rest).2
        (sorted ++ [current])
termination_by indegree queue _ => potAssoc indegree + queue.length
decreasing_by
  · simp only [List.length_cons]
    exact Nat.add_lt_add_left (Nat.lt_succ_self _) _
  · have := processTargets_pot oi (jsSortByIndex oi (adjacency current)) indegree rest
    simp only [List.length_cons]
    omega

/-- The reachability-restricted edge filter (lines 88-91). -/
def restrictedEdges (reachableIds : List String) (edges : List PipelineEdge) :
    List PipelineEdge :=
  edges.filter (fun e =>
    reachableIds.contains e.source_node_id && reachableIds.contains e.target_node_id)

/-- Indegree initialization (lines 84-87): every reachable id starts at 0. -/
def initIndegree (reachableIds : List String) : List (String × Int) :=
  reachableIds.foldl (fun m nodeId => setAssoc m nodeId 0) []

/-- Indegree accumulation (lines 92-96) over the restricted edges. -/
def incrIndegree (restricted : List PipelineEdge) (m0 : List (String × Int)) :
    List (String × Int) :=
  restricted.foldl
    (fun m e => setAssoc m e.target_node_id ((getAssoc m e.target_node_id).getD 0 + 1))
    m0

/-- The cycle-rejection message (lines 124-127). -/
def cyclicGraphMessage : String :=
  "Pipeline contains a cycle reachable from the selected start node. " ++
    "Remove circular connections before running."

/-- Lookup in `new Map(nodes.map((node) => [node.id, node]))`: with duplicate
ids the later entry wins, hence the reversed search. -/
def nodeMapGet (nodes : List PipelineNode) (nodeId : String) : Option PipelineNode :=
  nodes.reverse.find? (fun n => n.id == nodeId)

/-- `topologicalSortReachableNodes` (lines 76-134).  The `Set` of reachable
ids arrives as its insertion-ordered duplicate-free element list, so
`reachableIds.size` is the list length.  The adjacency map (lines 83-97) is
modelled extensionally by `buildOutgoingEdgeMap` over the restricted edges:
a reachable id with no restricted out-edges gets its initialized `[]`, an
unreachable id gets the `?? []` fallback, and both are `[]` there. -/
def topologicalSortReachableNodes (nodes : List PipelineNode)
    (edges : List PipelineEdge) (reachableIds : List String) :
    Except String (List PipelineNode) :=
  let oi := buildStableOrderIndex nodes
  let restricted := restrictedEdges reachableIds edges
  let indegree := incrIndegree restricted (initIndegree reachableIds)
  let zeroIndegreeQueue :=
    jsSortByIndex oi (reachableIds.filter (fun x => ((getAssoc indegree x).getD 0) == 0))
  let sortedNodeIds := kahnLoop (buildOutgoingEdgeMap restricted) oi indegree
    zeroIndegreeQueue []
  if sortedNodeIds.length ≠ reachableIds.length then
    .error cyclicGraphMessage
  else
    .ok (sortedNodeIds.filterMap (nodeMapGet nodes))

/-- The `InvalidStartNode` message (line 39). -/
def startNodeMissingMessage (startNodeId : String) : String :=
  "Start node \x27" ++ startNodeId ++ "\x27 does not exist in current pipeline."

/-- `buildPipelineExecutionPlan` (lines 32-48 of `pipeline_graph.ts`). -/
def buildPipelineExecutionPlan (nodes : List PipelineNode)
    (edges : List PipelineEdge) (startNodeId : String) :
    Except String PipelineExecutionPlan :=
  match nodeMapGet nodes startNodeId with
  | none => .error (startNodeMissingMessage startNodeId)
  | some _ =>
    let normalizedEdges := sanitizePipelineGraph nodes edges
    let reachableIds := collectReachableNodeIds startNodeId normalizedEdges
    match topologicalSortReachableNodes nodes normalizedEdges reachableIds with
    | .error msg => .error msg
    | .ok sortedNodes => .ok ⟨sortedNodes, reachableIds⟩

/-! ## Kahn loop invariant machinery -/

theorem getAssoc_setAssoc (m : List (String × Int)) (k : String) (v : Int) (x : String) :
    getAssoc (setAssoc m k v) x = if x = k then some v else getAssoc m x := by
  induction m with
  | nil =>
    by_cases hxk : x = k
    · simp [setAssoc, getAssoc, List.find?, hxk]
    · simp [setAssoc, getAssoc, List.find?, beq_eq_false_iff_ne.2 (Ne.symm hxk), hxk]
  | cons p rest ih =>
    by_cases hpk : p.1 = k
    · by_cases hxk : x = k
      · simp [setAssoc, hpk, getAssoc, List.find?, hxk]
      · have h1 : (k == x) = false := beq_eq_false_iff_ne.2 (fun hc => hxk hc.symm)
        have h2 : (p.1 == x) = false := by
          rw [hpk]; exact h1
        simp [setAssoc, hpk, getAssoc, List.find?, h1, h2, hxk]
    · by_cases hxp : x = p.1
      · have h1 : (p.1 == x) = true := beq_iff_eq.2 hxp.symm
        simp [setAssoc, hpk, getAssoc, List.find?, h1, hxp ▸ hpk, hxp]
      · have h1 : (p.1 == x) = false := beq_eq_false_iff_ne.2 (fun hc => hxp hc.symm)
        simp only [setAssoc, if_neg hpk, getAssoc, List.find?, h1]
        exact ih

/-- Position of the first occurrence of an id in a list (the run-order
position used to state the topological-order property). -/
def listPos : List String → String → Nat
  | [], _ => 0
  | y :: rest, x => if y = x then 0 else listPos rest x + 1

theorem listPos_append_left (l t : List String) (x : String) (hx : x ∈ l) :
    listPos (l ++ t) x = listPos l x := by
  induction l with
  | nil => cases hx
  | cons y rest ih =>
    by_cases hyx : y = x
    · simp [listPos, hyx]
    · rcases List.mem_cons.1 hx with rfl | hx2
      · exact absurd rfl hyx
      · simp [listPos, hyx, ih hx2]

theorem listPos_append_self (l : List String) (x : String) (hx : x ∉ l) :
    listPos (l ++ [x]) x = l.length := by
  induction l with
  | nil => simp [listPos]
  | cons y rest ih =>
    have hyx : y ≠ x := fun hc => hx (hc ▸ List.mem_cons_self _ _)
    simp only [List.cons_append, listPos, if_neg hyx, List.length_cons]
    show listPos (rest ++ [x]) x + 1 = rest.length + 1
    rw [ih (fun hc => hx (List.mem_cons_of_mem _ hc))]

theorem listPos_lt_length (l : List String) (x : String) (hx : x ∈ l) :
    listPos l x < l.length := by
  induction l with
  | nil => cases hx
  | cons y rest ih =>
    by_cases hyx : y = x
    · simp [listPos, hyx]
    · rcases List.mem_cons.1 hx with rfl | hx2
      · exact absurd rfl hyx
      · simp only [listPos, if_neg hyx, List.length_cons]
        exact Nat.succ_lt_succ (ih hx2)

theorem mem_jsSortByIndex (oi : String → Option Nat) (l : List String) (x : String) :
    x ∈ jsSortByIndex oi l ↔ x ∈ l :=
  List.mem_insertionSort _

theorem nodup_jsSortByIndex (oi : String → Option Nat) (l : List String)
    (h : l.Nodup) : (jsSortByIndex oi l).Nodup :=
  (List.perm_insertionSort _ l).nodup_iff.2 h

theorem countP_congr_all {α : Type} (l : List α) (p q : α → Bool)
    (h : ∀ a ∈ l, p a = q a) : l.countP p = l.countP q := by
  induction l with
  | nil => rfl
  | cons a t ih =>
    rw [List.countP_cons, List.countP_cons, h a (List.mem_cons_self _ _),
      ih (fun b hb => h b (List.mem_cons_of_mem _ hb))]

theorem processTargets_getAssoc (oi : String → Option Nat) :
    ∀ (ts : List String) (m : List (String × Int)) (q : List String) (x : String),
    ts.Nodup →
    getAssoc (processTargets oi ts m q).1 x =
      if x ∈ ts then some ((getAssoc m x).getD 0 - 1) else getAssoc m x := by
  intro ts
  induction ts with
  | nil =>
    intro m q x _
    simp [processTargets]
  | cons t ts ih =>
    intro m q x hnd
    have hnd2 := (List.nodup_cons.1 hnd).2
    have htn := (List.nodup_cons.1 hnd).1
    have hrec : ∀ q2, getAssoc (processTargets oi ts (setAssoc m t
        ((getAssoc m t).getD 0 - 1)) q2).1 x =
        if x ∈ ts then some ((getAssoc (setAssoc m t ((getAssoc m t).getD 0 - 1)) x).getD 0
          - 1) else getAssoc (setAssoc m t ((getAssoc m t).getD 0 - 1)) x := by
      intro q2
      exact ih _ q2 x hnd2
    by_cases h0 : ((getAssoc m t).getD 0 - 1) = 0
    · simp only [processTargets, if_pos h0]
      rw [hrec]
      by_cases hxt : x = t
      · subst hxt
        rw [if_neg htn, if_pos (List.mem_cons_self _ _), getAssoc_setAssoc, if_pos rfl]
      · rw [getAssoc_setAssoc, if_neg hxt]
        by_cases hxts : x ∈ ts
        · rw [if_pos hxts, if_pos (List.mem_cons_of_mem _ hxts)]
        · rw [if_neg hxts, if_neg (by
            intro hc
            rcases List.mem_cons.1 hc with rfl | hc2
            · exact hxt rfl
            · exact hxts hc2)]
    · simp only [processTargets, if_neg h0]
      rw [hrec]
      by_cases hxt : x = t
      · subst hxt
        rw [if_neg htn, if_pos (List.mem_cons_self _ _), getAssoc_setAssoc, if_pos rfl]
      · rw [getAssoc_setAssoc, if_neg hxt]
        by_cases hxts : x ∈ ts
        · rw [if_pos hxts, if_pos (List.mem_cons_of_mem _ hxts)]
        · rw [if_neg hxts, if_neg (by
            intro hc
            rcases List.mem_cons.1 hc with rfl | hc2
            · exact hxt rfl
            · exact hxts hc2)]

theorem processTargets_mem_queue (oi : String → Option Nat) :
    ∀ (ts : List String) (m : List (String × Int)) (q : List String) (x : String),
    ts.Nodup →
    (x ∈ (processTargets oi ts m q).2 ↔
      x ∈ q ∨ (x ∈ ts ∧ (getAssoc m x).getD 0 - 1 = 0)) := by
  intro ts
  induction ts with
  | nil =>
    intro m q x _
    simp [processTargets]
  | cons t ts ih =>
    intro m q x hnd
    have hnd2 := (List.nodup_cons.1 hnd).2
    have htn := (List.nodup_cons.1 hnd).1
    by_cases h0 : ((getAssoc m t).getD 0 - 1) = 0
    · simp only [processTargets, if_pos h0]
      rw [ih _ _ x hnd2]
      rw [mem_jsSortByIndex, List.mem_append, List.mem_singleton]
      constructor
      · rintro ((hq | rfl) | ⟨hts, hd⟩)
        · exact Or.inl hq
        · exact Or.inr ⟨List.mem_cons_self _ _, h0⟩
        · refine Or.inr ⟨List.mem_cons_of_mem _ hts, ?_⟩
          rw [getAssoc_setAssoc, if_neg (show x ≠ t from fun hc => htn (hc ▸ hts))] at hd
          exact hd
      · rintro (hq | ⟨hts, hd⟩)
        · exact Or.inl (Or.inl hq)
        · rcases List.mem_cons.1 hts with rfl | hts2
          · exact Or.inl (Or.inr rfl)
          · refine Or.inr ⟨hts2, ?_⟩
            rw [getAssoc_setAssoc, if_neg (show x ≠ t from fun hc => htn (hc ▸ hts2))]
            exact hd
    · simp only [processTargets, if_neg h0]
      rw [ih _ _ x hnd2]
      constructor
      · rintro (hq | ⟨hts, hd⟩)
        · exact Or.inl hq
        · refine Or.inr ⟨List.mem_cons_of_mem _ hts, ?_⟩
          rw [getAssoc_setAssoc, if_neg (show x ≠ t from fun hc => htn (hc ▸ hts))] at hd
          exact hd
      · rintro (hq | ⟨hts, hd⟩)
        · exact Or.inl hq
        · rcases List.mem_cons.1 hts with rfl | hts2
          · exact absurd hd h0
          · refine Or.inr ⟨hts2, ?_⟩
            rw [getAssoc_setAssoc, if_neg (show x ≠ t from fun hc => htn (hc ▸ hts2))]
            exact hd

theorem processTargets_nodup_queue (oi : String → Option Nat) :
    ∀ (ts : List String) (m : List (String × Int)) (q : List String),
    ts.Nodup → q.Nodup →
    (∀ t ∈ ts, (getAssoc m t).getD 0 - 1 = 0 → t ∉ q) →
    (processTargets oi ts m q).2.Nodup := by
  intro ts
  induction ts with
  | nil =>
    intro m q _ hq _
    simpa [processTargets] using hq
  | cons t ts ih =>
    intro m q hnd hq hdis
    have hnd2 := (List.nodup_cons.1 hnd).2
    have htn := (List.nodup_cons.1 hnd).1
    by_cases h0 : ((getAssoc m t).getD 0 - 1) = 0
    · simp only [processTargets, if_pos h0]
      refine ih _ _ hnd2 ?_ ?_
      · apply nodup_jsSortByIndex
        simp [List.nodup_append, hq, hdis t (List.mem_cons_self _ _) h0]
      · intro s hs hd0 hsq
        rw [mem_jsSortByIndex, List.mem_append, List.mem_singleton] at hsq
        rcases hsq with hsq | rfl
        · rw [getAssoc_setAssoc, if_neg (show s ≠ t from fun hc => htn (hc ▸ hs))] at hd0
          exact hdis s (List.mem_cons_of_mem _ hs) hd0 hsq
        · exact htn hs
    · simp only [processTargets, if_neg h0]
      refine ih _ _ hnd2 hq ?_
      intro s hs hd0 hsq
      rw [getAssoc_setAssoc, if_neg (show s ≠ t from fun hc => htn (hc ▸ hs))] at hd0
      exact hdis s (List.mem_cons_of_mem _ hs) hd0 hsq

/-- Number of not-yet-processed in-edges of `x`: restricted edges into `x`
whose source has not been appended to the output order yet. -/
def unprocCount (restricted : List PipelineEdge) (sorted : List String) (x : String) :
    Nat :=
  restricted.countP
    (fun e => e.target_node_id == x && !sorted.contains e.source_node_id)

theorem unprocCount_append_single (restricted : List PipelineEdge)
    (sorted : List String) (x current : String) (hc : current ∉ sorted) :
    unprocCount restricted sorted x =
      unprocCount restricted (sorted ++ [current]) x +
        restricted.countP
          (fun e => e.target_node_id == x && e.source_node_id == current) := by
  induction restricted with
  | nil => rfl
  | cons e rest ih =>
    unfold unprocCount at ih ⊢
    by_cases ht : e.target_node_id = x
    · by_cases hs : e.source_node_id ∈ sorted
      · have hsc : e.source_node_id ≠ current := fun h => hc (h ▸ hs)
        rw [List.countP_cons_of_neg _ _ (by simp [List.elem_iff, beq_iff_eq, ht, hs]),
          List.countP_cons_of_neg _ _
            (by simp [List.elem_iff, beq_iff_eq, ht, List.mem_append, hs]),
          List.countP_cons_of_neg _ _ (by simp [beq_iff_eq, ht, hsc])]
        exact ih
      · by_cases hsc : e.source_node_id = current
        · rw [List.countP_cons_of_pos _ _ (by simp [List.elem_iff, beq_iff_eq, ht, hs]),
            List.countP_cons_of_neg _ _
              (by simp [List.elem_iff, beq_iff_eq, ht, List.mem_append, hsc]),
            List.countP_cons_of_pos _ _ (by simp [beq_iff_eq, ht, hsc])]
          omega
        · rw [List.countP_cons_of_pos _ _ (by simp [List.elem_iff, beq_iff_eq, ht, hs]),
            List.countP_cons_of_pos _ _
              (by simp [List.elem_iff, beq_iff_eq, ht, List.mem_append, hs, hsc]),
            List.countP_cons_of_neg _ _ (by simp [beq_iff_eq, ht, hsc])]
          omega
    · rw [List.countP_cons_of_neg _ _ (by simp [beq_iff_eq, ht]),
        List.countP_cons_of_neg _ _ (by simp [beq_iff_eq, ht]),
        List.countP_cons_of_neg _ _ (by simp [beq_iff_eq, ht])]
      exact ih

theorem countP_beq_zero_of_not_mem {α : Type} [BEq α] [LawfulBEq α] (l : List α)
    (a : α) (ha : a ∉ l) : l.countP (fun b => b == a) = 0 := by
  induction l with
  | nil => rfl
  | cons x t ih =>
    have hxa : x ≠ a := fun hc => ha (hc ▸ List.mem_cons_self _ _)
    rw [List.countP_cons_of_neg _ _ (by simp [hxa])]
    exact ih (fun hc => ha (List.mem_cons_of_mem _ hc))

theorem countP_beq_one_of_nodup {α : Type} [BEq α] [LawfulBEq α] (l : List α)
    (hnd : l.Nodup) (a : α) (ha : a ∈ l) : l.countP (fun b => b == a) = 1 := by
  induction l with
  | nil => cases ha
  | cons x t ih =>
    have hx := List.nodup_cons.1 hnd
    by_cases hxa : x = a
    · subst hxa
      rw [List.countP_cons_of_pos _ _ (by simp),
        countP_beq_zero_of_not_mem t x hx.1]
    · rcases List.mem_cons.1 ha with h | h
      · exact absurd h.symm hxa
      · rw [List.countP_cons_of_neg _ _ (by simp [hxa])]
        exact ih hx.2 h

theorem countP_pair_of_nodup (restricted : List PipelineEdge)
    (hpairs : (restricted.map edgePair).Nodup) (u v : String) :
    restricted.countP (fun e => e.target_node_id == v && e.source_node_id == u) =
      if (u, v) ∈ restricted.map edgePair then 1 else 0 := by
  have h1 : restricted.countP
      (fun e => e.target_node_id == v && e.source_node_id == u) =
      (restricted.map edgePair).countP (fun p => p.2 == v && p.1 == u) := by
    rw [List.countP_map]
    rfl
  have h2 : (restricted.map edgePair).countP (fun p => p.2 == v && p.1 == u) =
      (restricted.map edgePair).countP (fun p => p == (u, v)) := by
    apply countP_congr_all
    intro p _
    apply Bool.coe_iff_coe.mp
    simp only [Bool.and_eq_true, beq_iff_eq]
    constructor
    · rintro ⟨h2, h1⟩
      exact Prod.ext_iff.mpr ⟨h1, h2⟩
    · rintro rfl
      exact ⟨rfl, rfl⟩
  by_cases hm : (u, v) ∈ restricted.map edgePair
  · rw [if_pos hm, h1, h2]
    exact countP_beq_one_of_nodup _ hpairs _ hm
  · rw [if_neg hm, h1, h2]
    exact countP_beq_zero_of_not_mem _ _ hm

theorem buildOutgoingEdgeMap_nodup (restricted : List PipelineEdge)
    (hpairs : (restricted.map edgePair).Nodup) (s : String) :
    (buildOutgoingEdgeMap restricted s).Nodup := by
  unfold buildOutgoingEdgeMap
  have hfp : ((restricted.filter (fun e => e.source_node_id == s)).map edgePair).Nodup :=
    (List.Sublist.map edgePair (List.filter_sublist restricted)).nodup hpairs
  have hfn : (restricted.filter (fun e => e.source_node_id == s)).Nodup := hfp.of_map
  refine (List.nodup_map_iff_inj_on hfn).mpr ?_
  intro e1 he1 e2 he2 heq
  have hs1 : e1.source_node_id = s := beq_iff_eq.1 (List.mem_filter.1 he1).2
  have hs2 : e2.source_node_id = s := beq_iff_eq.1 (List.mem_filter.1 he2).2
  have hp : edgePair e1 = edgePair e2 := by
    unfold edgePair
    rw [hs1, hs2, heq]
  exact List.inj_on_of_nodup_map hfp he1 he2 hp

theorem mem_targets_iff (restricted : List PipelineEdge) (oi : String → Option Nat)
    (current x : String) :
    x ∈ jsSortByIndex oi (buildOutgoingEdgeMap restricted current) ↔
      (current, x) ∈ restricted.map edgePair := by
  rw [mem_jsSortByIndex, mem_buildOutgoingEdgeMap]
  constructor
  · rintro ⟨e, he, hs, ht⟩
    exact List.mem_map.2 ⟨e, he, by rw [edgePair, hs, ht]⟩
  · rintro hm
    rcases List.mem_map.1 hm with ⟨e, he, hp⟩
    exact ⟨e, he, congrArg Prod.fst hp, congrArg Prod.snd hp⟩

/-- Loop invariant of the Kahn sort relative to the duplicate-free reachable
id list `R` and the reachability-restricted edges. -/
structure KahnInv (R : List String) (restricted : List PipelineEdge)
    (indegree : List (String × Int)) (queue sorted : List String) : Prop where
  sorted_nodup : sorted.Nodup
  queue_nodup : queue.Nodup
  queue_mem : ∀ x ∈ queue, x ∈ R ∧ x ∉ sorted
  sorted_mem : ∀ x ∈ sorted, x ∈ R
  indegree_eq : ∀ x ∈ R,
    getAssoc indegree x = some (Int.ofNat (unprocCount restricted sorted x))
  queue_iff : ∀ x ∈ R,
    (x ∈ queue ↔ x ∉ sorted ∧ unprocCount restricted sorted x = 0)
  topo : ∀ e ∈ restricted, e.target_node_id ∈ sorted →
    e.source_node_id ∈ sorted ∧
      listPos sorted e.source_node_id < listPos sorted e.target_node_id

/-- What holds of the Kahn loop's final output order. -/
structure KahnOut (R : List String) (restricted : List PipelineEdge)
    (final : List String) : Prop where
  nodup : final.Nodup
  mem_R : ∀ x ∈ final, x ∈ R
  topo : ∀ e ∈ restricted, e.target_node_id ∈ final →
    e.source_node_id ∈ final ∧
      listPos final e.source_node_id < listPos final e.target_node_id
  blocked : ∀ x ∈ R, x ∉ final →
    ∃ e ∈ restricted, e.target_node_id = x ∧ e.source_node_id ∈ R ∧
      e.source_node_id ∉ final

theorem kahnLoop_spec (R : List String) (restricted : List PipelineEdge)
    (oi : String → Option Nat)
    (hRne : "" ∉ R)
    (hpairs : (restricted.map edgePair).Nodup)
    (hends : ∀ e ∈ restricted, e.source_node_id ∈ R ∧ e.target_node_id ∈ R ∧
      e.source_node_id ≠ e.target_node_id) :
    ∀ indegree queue sorted, KahnInv R restricted indegree queue sorted →
    KahnOut R restricted
      (kahnLoop (buildOutgoingEdgeMap restricted) oi indegree queue sorted) := by
  intro indegree queue sorted
  induction indegree, queue, sorted
    using kahnLoop.induct (buildOutgoingEdgeMap restricted) oi with
  | case1 indegree sorted =>
    intro hinv
    rw [kahnLoop]
    refine ⟨hinv.sorted_nodup, hinv.sorted_mem, hinv.topo, ?_⟩
    intro x hxR hxs
    have hnq := (hinv.queue_iff x hxR).not.1 (List.not_mem_nil x)
    have hcount : unprocCount restricted sorted x ≠ 0 := by
      intro h0
      exact hnq ⟨hxs, h0⟩
    have hpos : 0 < restricted.countP
        (fun e => e.target_node_id == x && !sorted.contains e.source_node_id) :=
      Nat.pos_of_ne_zero hcount
    rcases List.countP_pos_iff.1 hpos with ⟨e, he, hpe⟩
    rcases Bool.and_eq_true_iff.1 hpe with ⟨he1, he2⟩
    exact ⟨e, he, beq_iff_eq.1 he1, (hends e he).1, (not_contains_iff _ _).1 he2⟩
  | case2 indegree current rest sorted hcond ih =>
    intro hinv
    have : current = "" := beq_iff_eq.1 hcond
    subst this
    exact absurd ((hinv.queue_mem _ (List.mem_cons_self _ _)).1) hRne
  | case3 indegree current rest sorted hcond ih =>
    intro hinv
    rw [kahnLoop, if_neg (by simpa using hcond)]
    have hcR : current ∈ R := (hinv.queue_mem current (List.mem_cons_self _ _)).1
    have hcs : current ∉ sorted := (hinv.queue_mem current (List.mem_cons_self _ _)).2
    have hcrest : current ∉ rest := (List.nodup_cons.1 hinv.queue_nodup).1
    have hrestnd : rest.Nodup := (List.nodup_cons.1 hinv.queue_nodup).2
    have hun0 : unprocCount restricted sorted current = 0 :=
      ((hinv.queue_iff current hcR).1 (List.mem_cons_self _ _)).2
    have htnd : (jsSortByIndex oi (buildOutgoingEdgeMap restricted current)).Nodup :=
      nodup_jsSortByIndex oi _ (buildOutgoingEdgeMap_nodup restricted hpairs current)
    have heq : ∀ x, unprocCount restricted sorted x =
        unprocCount restricted (sorted ++ [current]) x +
          (if (current, x) ∈ restricted.map edgePair then 1 else 0) := by
      intro x
      rw [unprocCount_append_single restricted sorted x current hcs,
        countP_pair_of_nodup restricted hpairs current x]
    have htfacts : ∀ x ∈ jsSortByIndex oi (buildOutgoingEdgeMap restricted current),
        x ∈ R ∧ x ≠ current ∧ x ∉ sorted ∧ x ∉ current :: rest ∧
          unprocCount restricted sorted x =
            unprocCount restricted (sorted ++ [current]) x + 1 := by
      intro x hx
      have hpm := (mem_targets_iff restricted oi current x).1 hx
      rcases List.mem_map.1 hpm with ⟨e, he, hp⟩
      have hsrc : e.source_node_id = current := congrArg Prod.fst hp
      have htgt : e.target_node_id = x := congrArg Prod.snd hp
      have hxR : x ∈ R := htgt ▸ (hends e he).2.1
      have hxc : x ≠ current := fun hxc => (hends e he).2.2 (by rw [hsrc, htgt, hxc])
      have hunpos : 0 < unprocCount restricted sorted x := by
        apply List.countP_pos_iff.2
        refine ⟨e, he, ?_⟩
        rw [Bool.and_eq_true_iff]
        exact ⟨beq_iff_eq.2 htgt, (not_contains_iff _ _).2 (hsrc ▸ hcs)⟩
      have hxs : x ∉ sorted := by
        intro hxs
        have := (hinv.topo e he (htgt ▸ hxs)).1
        exact hcs (hsrc ▸ this)
      have hxq : x ∉ current :: rest := by
        intro hxq
        have := ((hinv.queue_iff x hxR).1 hxq).2
        omega
      refine ⟨hxR, hxc, hxs, hxq, ?_⟩
      have := heq x
      rw [if_pos hpm] at this
      exact this
    have hnotin : ∀ x, x ∉ jsSortByIndex oi (buildOutgoingEdgeMap restricted current) →
        unprocCount restricted sorted x =
          unprocCount restricted (sorted ++ [current]) x := by
      intro x hx
      have hnp : (current, x) ∉ restricted.map edgePair := by
        intro hc
        exact hx ((mem_targets_iff restricted oi current x).2 hc)
      have := heq x
      rw [if_neg hnp] at this
      omega
    have hs2nd : (sorted ++ [current]).Nodup := by
      simp [List.nodup_append, hinv.sorted_nodup, hcs]
    refine ih ?_
    refine ⟨hs2nd, ?_, ?_, ?_, ?_, ?_, ?_⟩
    · -- queue_nodup
      apply processTargets_nodup_queue oi _ _ _ htnd hrestnd
      intro t ht _ htr
      exact (htfacts t ht).2.2.2.1 (List.mem_cons_of_mem _ htr)
    · -- queue_mem
      intro x hx
      rw [processTargets_mem_queue oi _ _ _ _ htnd] at hx
      rcases hx with hx | ⟨hxt, _⟩
      · have := hinv.queue_mem x (List.mem_cons_of_mem _ hx)
        refine ⟨this.1, ?_⟩
        intro hc
        rcases List.mem_append.1 hc with hc | hc
        · exact this.2 hc
        · exact hcrest ((List.mem_singleton.1 hc) ▸ hx)
      · have hf := htfacts x hxt
        refine ⟨hf.1, ?_⟩
        intro hc
        rcases List.mem_append.1 hc with hc | hc
        · exact hf.2.2.1 hc
        · exact hf.2.1 (List.mem_singleton.1 hc)
    · -- sorted_mem
      intro x hx
      rcases List.mem_append.1 hx with hx | hx
      · exact hinv.sorted_mem x hx
      · exact (List.mem_singleton.1 hx) ▸ hcR
    · -- indegree_eq
      intro x hxR
      rw [processTargets_getAssoc oi _ _ _ _ htnd]
      by_cases hxt : x ∈ jsSortByIndex oi (buildOutgoingEdgeMap restricted current)
      · rw [if_pos hxt, hinv.indegree_eq x hxR]
        have := (htfacts x hxt).2.2.2.2
        simp only [Option.getD_some]
        rw [this]
        congr 1
        simp only [Int.ofNat_eq_natCast]
        push_cast
        omega
      · rw [if_neg hxt, hinv.indegree_eq x hxR, hnotin x hxt]
    · -- queue_iff
      intro x hxR
      rw [processTargets_mem_queue oi _ _ _ _ htnd]
      by_cases hxt : x ∈ jsSortByIndex oi (buildOutgoingEdgeMap restricted current)
      · have hf := htfacts x hxt
        have hxrest : x ∉ rest := fun hc => hf.2.2.2.1 (List.mem_cons_of_mem _ hc)
        have hxs2 : x ∉ sorted ++ [current] := by
          intro hc
          rcases List.mem_append.1 hc with hc | hc
          · exact hf.2.2.1 hc
          · exact hf.2.1 (List.mem_singleton.1 hc)
        rw [hinv.indegree_eq x hxR]
        simp only [Option.getD_some]
        constructor
        · rintro (hc | ⟨_, hd⟩)
          · exact absurd hc hxrest
          · refine ⟨hxs2, ?_⟩
            have := hf.2.2.2.2
            simp only [Int.ofNat_eq_natCast] at hd
            omega
        · rintro ⟨_, hd⟩
          refine Or.inr ⟨hxt, ?_⟩
          have := hf.2.2.2.2
          simp only [Int.ofNat_eq_natCast]
          omega
      · have hre : unprocCount restricted (sorted ++ [current]) x =
            unprocCount restricted sorted x := (hnotin x hxt).symm
        by_cases hxc : x = current
        · subst hxc
          constructor
          · rintro (hc | ⟨hc, _⟩)
            · exact absurd hc hcrest
            · exact absurd hc hxt
          · rintro ⟨hc, _⟩
            exact absurd (List.mem_append_right _ (List.mem_singleton.2 rfl)) hc
        · constructor
          · rintro (hc | ⟨hc, _⟩)
            · have := (hinv.queue_iff x hxR).1 (List.mem_cons_of_mem _ hc)
              refine ⟨?_, by rw [hre]; exact this.2⟩
              intro hm
              rcases List.mem_append.1 hm with hm | hm
              · exact this.1 hm
              · exact hxc (List.mem_singleton.1 hm)
            · exact absurd hc hxt
          · rintro ⟨hns, hd⟩
            have hxs : x ∉ sorted := fun hc => hns (List.mem_append_left _ hc)
            have := (hinv.queue_iff x hxR).2 ⟨hxs, by rw [← hre]; exact hd⟩
            rcases List.mem_cons.1 this with hc | hc
            · exact absurd hc hxc
            · exact Or.inl hc
    · -- topo
      intro e he htgt
      rcases List.mem_append.1 htgt with htgt2 | htgt2
      · have := hinv.topo e he htgt2
        refine ⟨List.mem_append_left _ this.1, ?_⟩
        rw [listPos_append_left sorted [current] _ this.1,
          listPos_append_left sorted [current] _ htgt2]
        exact this.2
      · have htc : e.target_node_id = current := List.mem_singleton.1 htgt2
        have hsrcs : e.source_node_id ∈ sorted := by
          by_contra hns
          have : restricted.countP
              (fun e => e.target_node_id == current &&
                !sorted.contains e.source_node_id) ≠ 0 := by
            intro h0
            have := List.countP_eq_zero.1 h0 e he
            rw [Bool.and_eq_true_iff] at this
            exact this ⟨beq_iff_eq.2 htc, (not_contains_iff _ _).2 hns⟩
          exact this hun0
        refine ⟨List.mem_append_left _ hsrcs, ?_⟩
        rw [htc, listPos_append_left sorted [current] _ hsrcs,
          listPos_append_self sorted current hcs]
        exact listPos_lt_length sorted _ hsrcs

theorem getAssoc_initFold (R : List String) :
    ∀ (m0 : List (String × Int)) (x : String),
    getAssoc (R.foldl (fun m nodeId => setAssoc m nodeId 0) m0) x =
      if x ∈ R then some 0 else getAssoc m0 x := by
  induction R with
  | nil => intro m0 x; simp
  | cons r R ih =>
    intro m0 x
    rw [List.foldl_cons, ih]
    by_cases hxR : x ∈ R
    · rw [if_pos hxR, if_pos (List.mem_cons_of_mem _ hxR)]
    · rw [if_neg hxR, getAssoc_setAssoc]
      by_cases hxr : x = r
      · rw [if_pos hxr, if_pos (List.mem_cons.2 (Or.inl hxr))]
      · rw [if_neg hxr, if_neg (by
          intro hc
          rcases List.mem_cons.1 hc with hc | hc
          · exact hxr hc
          · exact hxR hc)]

theorem getAssoc_initIndegree (R : List String) (x : String) :
    getAssoc (initIndegree R) x = if x ∈ R then some 0 else none :=
  getAssoc_initFold R [] x

theorem getAssoc_incrIndegree_some (restricted : List PipelineEdge) :
    ∀ (m0 : List (String × Int)) (x : String) (v : Int),
    getAssoc m0 x = some v →
    getAssoc (incrIndegree restricted m0) x =
      some (v + Int.ofNat (restricted.countP (fun e => e.target_node_id == x))) := by
  induction restricted with
  | nil =>
    intro m0 x v h
    simpa [incrIndegree] using h
  | cons e rest ih =>
    intro m0 x v h
    unfold incrIndegree at ih ⊢
    rw [List.foldl_cons]
    by_cases hte : e.target_node_id = x
    · have hget : getAssoc (setAssoc m0 e.target_node_id
          ((getAssoc m0 e.target_node_id).getD 0 + 1)) x = some (v + 1) := by
        rw [getAssoc_setAssoc, if_pos hte.symm, hte, h]
        rfl
      rw [ih _ x (v + 1) hget,
        List.countP_cons_of_pos _ _ (by simp [beq_iff_eq, hte])]
      congr 1
      simp only [Int.ofNat_eq_natCast]
      push_cast
      ring
    · have hget : getAssoc (setAssoc m0 e.target_node_id
          ((getAssoc m0 e.target_node_id).getD 0 + 1)) x = some v := by
        rw [getAssoc_setAssoc, if_neg (fun hc => hte hc.symm)]
        exact h
      rw [ih _ x v hget,
        List.countP_cons_of_neg _ _ (by simp [beq_iff_eq, hte])]

theorem unprocCount_nil (restricted : List PipelineEdge) (x : String) :
    unprocCount restricted [] x =
      restricted.countP (fun e => e.target_node_id == x) := by
  apply countP_congr_all
  intro e _
  simp [List.contains]

/-- The id sequence produced by the Kahn phase of
`topologicalSortReachableNodes` before the cycle check. -/
def kahnResultIds (nodes : List PipelineNode) (edges : List PipelineEdge)
    (reachableIds : List String) : List String :=
  kahnLoop (buildOutgoingEdgeMap (restrictedEdges reachableIds edges))
    (buildStableOrderIndex nodes)
    (incrIndegree (restrictedEdges reachableIds edges) (initIndegree reachableIds))
    (jsSortByIndex (buildStableOrderIndex nodes)
      (reachableIds.filter (fun x =>
        ((getAssoc (incrIndegree (restrictedEdges reachableIds edges)
          (initIndegree reachableIds)) x).getD 0) == 0)))
    []

theorem topologicalSortReachableNodes_eq (nodes : List PipelineNode)
    (edges : List PipelineEdge) (reachableIds : List String) :
    topologicalSortReachableNodes nodes edges reachableIds =
      if (kahnResultIds nodes edges reachableIds).length ≠ reachableIds.length then
        .error cyclicGraphMessage
      else
        .ok ((kahnResultIds nodes edges reachableIds).filterMap (nodeMapGet nodes)) :=
  rfl

theorem restrictedEdges_mem (reachableIds : List String) (edges : List PipelineEdge)
    (e : PipelineEdge) :
    e ∈ restrictedEdges reachableIds edges ↔
      e ∈ edges ∧ e.source_node_id ∈ reachableIds ∧ e.target_node_id ∈ reachableIds := by
  unfold restrictedEdges
  rw [List.mem_filter]
  simp [List.elem_iff, and_assoc]

theorem kahnResultIds_spec (nodes : List PipelineNode) (edges : List PipelineEdge)
    (R : List String)
    (hRnd : R.Nodup) (hRne : "" ∉ R)
    (hpairs : (edges.map edgePair).Nodup)
    (hnsl : ∀ e ∈ edges, e.source_node_id ≠ e.target_node_id) :
    KahnOut R (restrictedEdges R edges) (kahnResultIds nodes edges R) := by
  have hsub : List.Sublist (restrictedEdges R edges) edges := List.filter_sublist edges
  have hpairs2 : ((restrictedEdges R edges).map edgePair).Nodup :=
    (List.Sublist.map edgePair hsub).nodup hpairs
  have hends : ∀ e ∈ restrictedEdges R edges,
      e.source_node_id ∈ R ∧ e.target_node_id ∈ R ∧
        e.source_node_id ≠ e.target_node_id := by
    intro e he
    rcases (restrictedEdges_mem R edges e).1 he with ⟨he2, hs, ht⟩
    exact ⟨hs, ht, hnsl e he2⟩
  apply kahnLoop_spec R (restrictedEdges R edges) (buildStableOrderIndex nodes)
    hRne hpairs2 hends
  have hindeg : ∀ x ∈ R,
      getAssoc (incrIndegree (restrictedEdges R edges) (initIndegree R)) x =
        some (Int.ofNat (unprocCount (restrictedEdges R edges) [] x)) := by
    intro x hxR
    rw [getAssoc_incrIndegree_some _ _ x 0
        (by rw [getAssoc_initIndegree, if_pos hxR]),
      unprocCount_nil]
    simp
  refine ⟨List.nodup_nil, ?_, ?_, ?_, hindeg, ?_, ?_⟩
  · exact nodup_jsSortByIndex _ _ (hRnd.filter _)
  · intro x hx
    rw [mem_jsSortByIndex] at hx
    exact ⟨(List.mem_filter.1 hx).1, List.not_mem_nil x⟩
  · intro x hx
    cases hx
  · intro x hxR
    rw [mem_jsSortByIndex, List.mem_filter]
    constructor
    · rintro ⟨_, hz⟩
      refine ⟨List.not_mem_nil x, ?_⟩
      rw [hindeg x hxR] at hz
      simp only [Option.getD_some, beq_iff_eq, Int.ofNat_eq_natCast] at hz
      omega
    · rintro ⟨_, hz⟩
      refine ⟨hxR, ?_⟩
      rw [hindeg x hxR]
      simp only [Option.getD_some, beq_iff_eq, Int.ofNat_eq_natCast]
      omega
  · intro e _ ht
    cases ht

/-! ## Reachability and cycles as the claims state them -/

/-- Forward reachability over source/target pairs (the claims' notion of a
directed path from the start node). -/
inductive Reaches (pairs : List (String × String)) (start : String) : String → Prop where
  | refl : Reaches pairs start start
  | step {u v : String} (hu : Reaches pairs start u) (huv : (u, v) ∈ pairs) :
      Reaches pairs start v

theorem CodeReach.toReaches {pairs : List (String × String)} {start x : String}
    (h : CodeReach pairs start x) : Reaches pairs start x := by
  induction h with
  | start _ => exact .refl
  | step _ huv _ ih => exact .step ih huv

theorem Reaches.toCodeReach {pairs : List (String × String)} {start x : String}
    (hstart : start ≠ "") (htgt : ∀ p ∈ pairs, p.2 ≠ "")
    (h : Reaches pairs start x) : CodeReach pairs start x := by
  induction h with
  | refl => exact .start hstart
  | step _ huv ih => exact .step ih huv (htgt _ huv)

theorem Reaches.of_transGen {pairs : List (String × String)} {start a b : String}
    (ha : Reaches pairs start a)
    (h : Relation.TransGen (fun u v => (u, v) ∈ pairs) a b) : Reaches pairs start b := by
  induction h with
  | single h1 => exact ha.step h1
  | tail _ h2 ih => exact ih.step h2

theorem nodup_subset_length_le (l m : List String) (hl : l.Nodup)
    (hsub : ∀ x ∈ l, x ∈ m) : l.length ≤ m.length := by
  classical
  calc l.length = l.toFinset.card := (List.toFinset_card_of_nodup hl).symm
  _ ≤ m.toFinset.card := Finset.card_le_card
      (fun x hx => List.mem_toFinset.2 (hsub x (List.mem_toFinset.1 hx)))
  _ ≤ m.length := m.toFinset_card_le

theorem mem_iff_of_nodup_subset_length (l m : List String) (hl : l.Nodup)
    (hm : m.Nodup) (hsub : ∀ x ∈ l, x ∈ m) (hlen : m.length ≤ l.length) :
    ∀ x, x ∈ l ↔ x ∈ m := by
  classical
  have hfsub : l.toFinset ⊆ m.toFinset :=
    fun x hx => List.mem_toFinset.2 (hsub x (List.mem_toFinset.1 hx))
  have hcard : m.toFinset.card ≤ l.toFinset.card := by
    rw [List.toFinset_card_of_nodup hl, List.toFinset_card_of_nodup hm]
    exact hlen
  have := Finset.eq_of_subset_of_card_le hfsub hcard
  intro x
  rw [← List.mem_toFinset, ← List.mem_toFinset (l := m), this]

/-- In a finite set where every element has a predecessor inside the set,
some element lies on a directed cycle. -/
theorem exists_cycle_of_pred (S : List String) (step : String → String → Prop)
    (hne : S ≠ []) (h : ∀ x ∈ S, ∃ u ∈ S, step u x) :
    ∃ z ∈ S, Relation.TransGen step z z := by
  classical
  obtain ⟨x0, hx0⟩ : ∃ x, x ∈ S := by
    cases S with
    | nil => exact absurd rfl hne
    | cons a t => exact ⟨a, List.mem_cons_self _ _⟩
  let g : String → String := fun x =>
    if hx : x ∈ S then Classical.choose (h x hx) else x0
  have hg : ∀ x, x ∈ S → g x ∈ S ∧ step (g x) x := by
    intro x hx
    have := Classical.choose_spec (h x hx)
    simp only [g, dif_pos hx]
    exact this
  let seq : Nat → String := fun n => g^[n] x0
  have hseq : ∀ n, seq n ∈ S := by
    intro n
    induction n with
    | zero => exact hx0
    | succ k ih =>
      have : seq (k + 1) = g (seq k) := Function.iterate_succ_apply' g k x0
      rw [this]
      exact (hg (seq k) ih).1
  have hstep : ∀ n, step (seq (n + 1)) (seq n) := by
    intro n
    rw [show seq (n + 1) = g (seq n) from Function.iterate_succ_apply' g n x0]
    exact (hg (seq n) (hseq n)).2
  have hchain : ∀ d a, Relation.TransGen step (seq (a + d + 1)) (seq a) := by
    intro d
    induction d with
    | zero => intro a; exact Relation.TransGen.single (hstep a)
    | succ k ih =>
      intro a
      have h1 : step (seq (a + k + 2)) (seq (a + k + 1)) := hstep (a + k + 1)
      have h2 : Relation.TransGen step (seq (a + k + 1)) (seq a) := ih a
      have : a + (k + 1) + 1 = a + k + 2 := by omega
      rw [this]
      exact Relation.TransGen.head h1 h2
  have hpigeon : ∃ i j : Fin (S.length + 1), i ≠ j ∧ seq i = seq j := by
    have := Finset.exists_ne_map_eq_of_card_lt_of_maps_to
      (s := (Finset.univ : Finset (Fin (S.length + 1)))) (t := S.toFinset)
      (by
        have h1 : S.toFinset.card ≤ S.length := S.toFinset_card_le
        simp only [Finset.card_univ, Fintype.card_fin]
        omega)
      (fun i _ => List.mem_toFinset.2 (hseq i))
    rcases this with ⟨i, _, j, _, hij, hfij⟩
    exact ⟨i, j, hij, hfij⟩
  rcases hpigeon with ⟨i, j, hij, hseqeq⟩
  rcases Nat.lt_or_ge (i : Nat) (j : Nat) with hlt | hge
  · refine ⟨seq i, hseq i, ?_⟩
    have := hchain ((j : Nat) - (i : Nat) - 1) (i : Nat)
    rw [show (i : Nat) + ((j : Nat) - (i : Nat) - 1) + 1 = (j : Nat) from by omega] at this
    rw [hseqeq]
    rw [← hseqeq] at this
    exact hseqeq ▸ this
  · have hlt2 : (j : Nat) < (i : Nat) := by
      rcases Nat.lt_or_ge (j : Nat) (i : Nat) with h2 | h2
      · exact h2
      · exact absurd (Fin.ext (Nat.le_antisymm h2 hge)) hij
    refine ⟨seq j, hseq j, ?_⟩
    have := hchain ((i : Nat) - (j : Nat) - 1) (j : Nat)
    rw [show (j : Nat) + ((i : Nat) - (j : Nat) - 1) + 1 = (i : Nat) from by omega] at this
    rw [hseqeq] at this
    exact this

theorem mem_edgePairs_iff (l : List PipelineEdge) (u v : String) :
    (u, v) ∈ l.map edgePair ↔
      ∃ e ∈ l, e.source_node_id = u ∧ e.target_node_id = v := by
  constructor
  · intro h
    rcases List.mem_map.1 h with ⟨e, he, hp⟩
    exact ⟨e, he, congrArg Prod.fst hp, congrArg Prod.snd hp⟩
  · rintro ⟨e, he, hs, ht⟩
    exact List.mem_map.2 ⟨e, he, by rw [edgePair, hs, ht]⟩

theorem pair_mem_restricted (edges : List PipelineEdge) (R : List String)
    (u v : String) (hu : u ∈ R) (hv : v ∈ R)
    (h : (u, v) ∈ edges.map edgePair) :
    (u, v) ∈ (restrictedEdges R edges).map edgePair := by
  rcases (mem_edgePairs_iff edges u v).1 h with ⟨e, he, hs, ht⟩
  exact (mem_edgePairs_iff _ u v).2
    ⟨e, (restrictedEdges_mem R edges e).2 ⟨he, hs ▸ hu, ht ▸ hv⟩, hs, ht⟩

theorem pair_mem_of_restricted (edges : List PipelineEdge) (R : List String)
    (u v : String) (h : (u, v) ∈ (restrictedEdges R edges).map edgePair) :
    (u, v) ∈ edges.map edgePair := by
  rcases (mem_edgePairs_iff _ u v).1 h with ⟨e, he, hs, ht⟩
  exact (mem_edgePairs_iff edges u v).2
    ⟨e, ((restrictedEdges_mem R edges e).1 he).1, hs, ht⟩

theorem transGen_pos_lt (restricted : List PipelineEdge) (final : List String)
    (htopo : ∀ e ∈ restricted, e.target_node_id ∈ final →
      e.source_node_id ∈ final ∧
        listPos final e.source_node_id < listPos final e.target_node_id) :
    ∀ a b, Relation.TransGen
        (fun u v => (u, v) ∈ restricted.map edgePair) a b →
      b ∈ final → a ∈ final ∧ listPos final a < listPos final b := by
  intro a b h
  induction h with
  | single h1 =>
    intro hb
    rcases (mem_edgePairs_iff _ _ _).1 h1 with ⟨e, he, hs, ht⟩
    have := htopo e he (ht ▸ hb)
    rw [hs, ht] at this
    exact this
  | tail _ h2 ih =>
    intro hb
    rcases (mem_edgePairs_iff _ _ _).1 h2 with ⟨e, he, hs, ht⟩
    have hstep := htopo e he (ht ▸ hb)
    rw [hs, ht] at hstep
    have h3 := ih hstep.1
    exact ⟨h3.1, h3.2.trans hstep.2⟩

theorem transGen_restrict_to_R (edges : List PipelineEdge) (start : String)
    (R : List String)
    (hR : ∀ x, Reaches (edges.map edgePair) start x → x ∈ R) :
    ∀ a b, Relation.TransGen (fun u v => (u, v) ∈ edges.map edgePair) a b →
      Reaches (edges.map edgePair) start a →
      Relation.TransGen
        (fun u v => (u, v) ∈ (restrictedEdges R edges).map edgePair) a b := by
  intro a b h
  induction h with
  | single h1 =>
    intro ha
    exact Relation.TransGen.single
      (pair_mem_restricted edges R _ _ (hR _ ha) (hR _ (ha.step h1)) h1)
  | tail hT h2 ih =>
    intro ha
    have hc : Reaches (edges.map edgePair) start _ := ha.of_transGen hT
    exact Relation.TransGen.tail (ih ha)
      (pair_mem_restricted edges R _ _ (hR _ hc) (hR _ (hc.step h2)) h2)

theorem codeReach_mem_ids (nodes : List PipelineNode) (edges : List PipelineEdge)
    (start x : String) (hstart : start ∈ nodes.map (·.id))
    (h : CodeReach (edgePairs (sanitizePipelineGraph nodes edges)) start x) :
    x ∈ nodes.map (·.id) := by
  induction h with
  | start _ => exact hstart
  | step _ huv _ _ =>
    rcases (mem_edgePairs_iff _ _ _).1 huv with ⟨e, he, _, ht⟩
    exact ht ▸ (mem_sanitize_endpoints nodes edges e he).2.1

theorem nodeMapGet_isSome_iff (nodes : List PipelineNode) (x : String) :
    (nodeMapGet nodes x).isSome ↔ x ∈ nodes.map (·.id) := by
  unfold nodeMapGet
  rw [List.find?_isSome]
  constructor
  · rintro ⟨n, hn, hp⟩
    exact List.mem_map.2 ⟨n, List.mem_reverse.1 hn, beq_iff_eq.1 hp⟩
  · rintro hm
    rcases List.mem_map.1 hm with ⟨n, hn, hid⟩
    exact ⟨n, List.mem_reverse.2 hn, beq_iff_eq.2 hid⟩

theorem nodeMapGet_some (nodes : List PipelineNode) (x : String) (n : PipelineNode)
    (h : nodeMapGet nodes x = some n) : n ∈ nodes ∧ n.id = x := by
  have h2 : nodes.reverse.find? (fun m => m.id == x) = some n := h
  have h3 := @List.find?_some PipelineNode (fun m => m.id == x) n nodes.reverse h2
  exact ⟨List.mem_reverse.1 (List.mem_of_find?_eq_some h2), beq_iff_eq.1 h3⟩

theorem filterMap_nodeMapGet_map_id (nodes : List PipelineNode) :
    ∀ (l : List String), (∀ x ∈ l, x ∈ nodes.map (·.id)) →
    ((l.filterMap (nodeMapGet nodes)).map (·.id)) = l := by
  intro l
  induction l with
  | nil => intro _; rfl
  | cons x t ih =>
    intro h
    have hx := h x (List.mem_cons_self _ _)
    have hsome : (nodeMapGet nodes x).isSome := (nodeMapGet_isSome_iff nodes x).2 hx
    rcases Option.isSome_iff_exists.1 hsome with ⟨n, hn⟩
    simp only [List.filterMap_cons, hn, List.map_cons]
    rw [(nodeMapGet_some nodes x n hn).2,
      ih (fun y hy => h y (List.mem_cons_of_mem _ hy))]

theorem buildPlan_eq_of_start_mem (nodes : List PipelineNode)
    (edges : List PipelineEdge) (startNodeId : String)
    (hstart : startNodeId ∈ nodes.map (·.id)) :
    buildPipelineExecutionPlan nodes edges startNodeId =
      match topologicalSortReachableNodes nodes (sanitizePipelineGraph nodes edges)
        (collectReachableNodeIds startNodeId (sanitizePipelineGraph nodes edges)) with
      | .error msg => .error msg
      | .ok sortedNodes => .ok ⟨sortedNodes,
          collectReachableNodeIds startNodeId (sanitizePipelineGraph nodes edges)⟩ := by
  have hsome : (nodeMapGet nodes startNodeId).isSome :=
    (nodeMapGet_isSome_iff nodes startNodeId).2 hstart
  rcases Option.isSome_iff_exists.1 hsome with ⟨n, hn⟩
  unfold buildPipelineExecutionPlan
  rw [hn]

theorem kahnResultIds_out (nodes : List PipelineNode) (edges : List PipelineEdge)
    (start : String) :
    KahnOut (collectReachableNodeIds start (sanitizePipelineGraph nodes edges))
      (restrictedEdges
        (collectReachableNodeIds start (sanitizePipelineGraph nodes edges))
        (sanitizePipelineGraph nodes edges))
      (kahnResultIds nodes (sanitizePipelineGraph nodes edges)
        (collectReachableNodeIds start (sanitizePipelineGraph nodes edges))) := by
  apply kahnResultIds_spec
  · exact collectReachableNodeIds_nodup _ _
  · intro hc
    exact (CodeReach.ne_empty ((mem_collectReachableNodeIds _ _ _).1 hc)) rfl
  · exact sanitize_pairs_nodup nodes edges
  · intro e he
    exact (mem_sanitize_endpoints nodes edges e he).2.2

theorem reaches_iff_mem_R (nodes : List PipelineNode) (edges : List PipelineEdge)
    (start : String)
    (hne : ∀ n ∈ nodes, n.id ≠ "") (hstart : start ∈ nodes.map (·.id)) :
    ∀ x, x ∈ collectReachableNodeIds start (sanitizePipelineGraph nodes edges) ↔
      Reaches (edgePairs (sanitizePipelineGraph nodes edges)) start x := by
  intro x
  rw [mem_collectReachableNodeIds]
  constructor
  · exact CodeReach.toReaches
  · intro h
    apply Reaches.toCodeReach ?_ ?_ h
    · rcases List.mem_map.1 hstart with ⟨n, hn, hid⟩
      exact hid ▸ hne n hn
    · intro p hp
      rcases List.mem_map.1 hp with ⟨e, he, hpe⟩
      have hte := (mem_sanitize_endpoints nodes edges e he).2.1
      rcases List.mem_map.1 hte with ⟨n, hn, hid⟩
      rw [← hpe]
      show e.target_node_id ≠ ""
      exact hid ▸ hne n hn

/-- C2 (amended): for every node list with distinct, non-empty identities,
every edge list, and every start node present in the node list, whenever
`build_plan` succeeds its `ordered_nodes` contains exactly the full node
records of the nodes reachable from the start node by forward directed
traversal over the sanitized edges (each exactly once), arranged so that
every sanitized edge with both endpoints reachable points from an earlier to
a later position; a node with no directed path from the start node is absent
from `ordered_nodes` (the membership characterization below is an iff).  The
claim as stated, without the non-emptiness restriction, is refuted by
`claim_C2_counterexample`: the JS truthiness test `!current` skips the empty
string id, so a node with identity `""` is dropped even when reachable. -/
theorem claim_C2_plan_reachable_topological
    (nodes : List PipelineNode) (edges : List PipelineEdge) (startNodeId : String)
    (plan : PipelineExecutionPlan)
    (hnd : (nodes.map (·.id)).Nodup)
    (hne : ∀ n ∈ nodes, n.id ≠ "")
    (hstart : startNodeId ∈ nodes.map (·.id))
    (hok : buildPipelineExecutionPlan nodes edges startNodeId = .ok plan) :
    (∀ n ∈ plan.ordered_nodes, n ∈ nodes) ∧
    (plan.ordered_nodes.map (·.id)).Nodup ∧
    (∀ x, x ∈ plan.ordered_nodes.map (·.id) ↔
      Reaches (edgePairs (sanitizePipelineGraph nodes edges)) startNodeId x) ∧
    (∀ u v, (u, v) ∈ edgePairs (sanitizePipelineGraph nodes edges) →
      Reaches (edgePairs (sanitizePipelineGraph nodes edges)) startNodeId u →
      Reaches (edgePairs (sanitizePipelineGraph nodes edges)) startNodeId v →
      listPos (plan.ordered_nodes.map (·.id)) u <
        listPos (plan.ordered_nodes.map (·.id)) v) := by
  rw [buildPlan_eq_of_start_mem nodes edges startNodeId hstart,
    topologicalSortReachableNodes_eq] at hok
  by_cases hlen : (kahnResultIds nodes (sanitizePipelineGraph nodes edges)
      (collectReachableNodeIds startNodeId (sanitizePipelineGraph nodes edges))).length ≠
      (collectReachableNodeIds startNodeId (sanitizePipelineGraph nodes edges)).length
  · rw [if_pos hlen] at hok
    simp at hok
  · rw [if_neg hlen] at hok
    simp only [] at hok
    have hplan : plan = ⟨(kahnResultIds nodes (sanitizePipelineGraph nodes edges)
        (collectReachableNodeIds startNodeId
          (sanitizePipelineGraph nodes edges))).filterMap (nodeMapGet nodes),
        collectReachableNodeIds startNodeId (sanitizePipelineGraph nodes edges)⟩ := by
      cases hok
      rfl
    subst hplan
    have hK := kahnResultIds_out nodes edges startNodeId
    have hRnd := collectReachableNodeIds_nodup
      (sanitizePipelineGraph nodes edges) startNodeId
    have hmemiff : ∀ x, x ∈ kahnResultIds nodes (sanitizePipelineGraph nodes edges)
        (collectReachableNodeIds startNodeId (sanitizePipelineGraph nodes edges)) ↔
        x ∈ collectReachableNodeIds startNodeId (sanitizePipelineGraph nodes edges) :=
      mem_iff_of_nodup_subset_length _ _ hK.nodup hRnd hK.mem_R (by omega)
    have hRsub : ∀ x ∈ collectReachableNodeIds startNodeId
        (sanitizePipelineGraph nodes edges), x ∈ nodes.map (·.id) := by
      intro x hx
      exact codeReach_mem_ids nodes edges startNodeId x hstart
        ((mem_collectReachableNodeIds _ _ _).1 hx)
    have hidmap : (((kahnResultIds nodes (sanitizePipelineGraph nodes edges)
        (collectReachableNodeIds startNodeId
          (sanitizePipelineGraph nodes edges))).filterMap
            (nodeMapGet nodes)).map (·.id)) =
        kahnResultIds nodes (sanitizePipelineGraph nodes edges)
          (collectReachableNodeIds startNodeId (sanitizePipelineGraph nodes edges)) :=
      filterMap_nodeMapGet_map_id nodes _
        (fun x hx => hRsub x ((hmemiff x).1 hx))
    have hriff := reaches_iff_mem_R nodes edges startNodeId hne hstart
    refine ⟨?_, ?_, ?_, ?_⟩
    · intro n hn
      rcases List.mem_filterMap.1 hn with ⟨x, _, hx2⟩
      exact (nodeMapGet_some nodes x n hx2).1
    · show (((kahnResultIds nodes _ _).filterMap (nodeMapGet nodes)).map (·.id)).Nodup
      rw [hidmap]
      exact hK.nodup
    · intro x
      show x ∈ ((kahnResultIds nodes _ _).filterMap (nodeMapGet nodes)).map (·.id) ↔ _
      rw [hidmap]
      rw [hmemiff x, hriff x]
    · intro u v huv hru hrv
      have hvR := (hriff v).2 hrv
      have huR := (hriff u).2 hru
      have hpair := pair_mem_restricted (sanitizePipelineGraph nodes edges)
        (collectReachableNodeIds startNodeId (sanitizePipelineGraph nodes edges))
        u v huR hvR huv
      rcases (mem_edgePairs_iff _ _ _).1 hpair with ⟨e, he, hs, ht⟩
      have htopo := hK.topo e he (by rw [ht]; exact (hmemiff v).2 hvR)
      rw [hs, ht] at htopo
      show listPos (((kahnResultIds nodes _ _).filterMap (nodeMapGet nodes)).map (·.id)) u
          < listPos (((kahnResultIds nodes _ _).filterMap (nodeMapGet nodes)).map (·.id)) v
      rw [hidmap]
      exact htopo.2

/-- C3 (amended): for every node list with non-empty identities, edge list,
and start node present in the node list, `build_plan` fails with the
`CyclicGraph` message (naming the removal of circular connections) if and
only if the subgraph reachable from the start node over the sanitized edges
contains a directed cycle.  The claim as stated, without the non-emptiness
restriction, is refuted by `claim_C3_counterexample`: the traversal skips the
empty-string id, so a cycle through a node with identity `""` that is
reachable in the claim's sense is invisible to the code.  In particular a
reachable 2-node mutual edge pair fails (see `claim_C3_witness`), and an
unreachable cycle does not affect planning. -/
theorem claim_C3_cycle_iff (nodes : List PipelineNode) (edges : List PipelineEdge)
    (startNodeId : String)
    (hne : ∀ n ∈ nodes, n.id ≠ "")
    (hstart : startNodeId ∈ nodes.map (·.id)) :
    (buildPipelineExecutionPlan nodes edges startNodeId =
      .error cyclicGraphMessage) ↔
      ∃ z, Reaches (edgePairs (sanitizePipelineGraph nodes edges)) startNodeId z ∧
        Relation.TransGen
          (fun u v => (u, v) ∈ edgePairs (sanitizePipelineGraph nodes edges)) z z := by
  rw [buildPlan_eq_of_start_mem nodes edges startNodeId hstart,
    topologicalSortReachableNodes_eq]
  have hK := kahnResultIds_out nodes edges startNodeId
  have hRnd := collectReachableNodeIds_nodup
    (sanitizePipelineGraph nodes edges) startNodeId
  have hriff := reaches_iff_mem_R nodes edges startNodeId hne hstart
  by_cases hlen : (kahnResultIds nodes (sanitizePipelineGraph nodes edges)
      (collectReachableNodeIds startNodeId (sanitizePipelineGraph nodes edges))).length ≠
      (collectReachableNodeIds startNodeId (sanitizePipelineGraph nodes edges)).length
  · rw [if_pos hlen]
    have hFR : (kahnResultIds nodes (sanitizePipelineGraph nodes edges)
        (collectReachableNodeIds startNodeId
          (sanitizePipelineGraph nodes edges))).length ≤
        (collectReachableNodeIds startNodeId
          (sanitizePipelineGraph nodes edges)).length :=
      nodup_subset_length_le _ _ hK.nodup hK.mem_R
    have hex : ∃ x ∈ collectReachableNodeIds startNodeId
        (sanitizePipelineGraph nodes edges),
        x ∉ kahnResultIds nodes (sanitizePipelineGraph nodes edges)
          (collectReachableNodeIds startNodeId (sanitizePipelineGraph nodes edges)) := by
      by_contra hall
      push_neg at hall
      have := nodup_subset_length_le _ _ hRnd hall
      omega
    rcases hex with ⟨x0, hx0R, hx0F⟩
    have hSmem : ∀ x, x ∈ (collectReachableNodeIds startNodeId
        (sanitizePipelineGraph nodes edges)).filter
          (fun x => !((kahnResultIds nodes (sanitizePipelineGraph nodes edges)
            (collectReachableNodeIds startNodeId
              (sanitizePipelineGraph nodes edges))).contains x)) ↔
        x ∈ collectReachableNodeIds startNodeId (sanitizePipelineGraph nodes edges) ∧
          x ∉ kahnResultIds nodes (sanitizePipelineGraph nodes edges)
            (collectReachableNodeIds startNodeId
              (sanitizePipelineGraph nodes edges)) := by
      intro x
      rw [List.mem_filter, not_contains_iff]
    have hSne : (collectReachableNodeIds startNodeId
        (sanitizePipelineGraph nodes edges)).filter
          (fun x => !((kahnResultIds nodes (sanitizePipelineGraph nodes edges)
            (collectReachableNodeIds startNodeId
              (sanitizePipelineGraph nodes edges))).contains x)) ≠ [] :=
      List.ne_nil_of_mem ((hSmem x0).2 ⟨hx0R, hx0F⟩)
    have hstep : ∀ x ∈ (collectReachableNodeIds startNodeId
        (sanitizePipelineGraph nodes edges)).filter
          (fun x => !((kahnResultIds nodes (sanitizePipelineGraph nodes edges)
            (collectReachableNodeIds startNodeId
              (sanitizePipelineGraph nodes edges))).contains x)),
        ∃ u ∈ (collectReachableNodeIds startNodeId
          (sanitizePipelineGraph nodes edges)).filter
            (fun x => !((kahnResultIds nodes (sanitizePipelineGraph nodes edges)
              (collectReachableNodeIds startNodeId
                (sanitizePipelineGraph nodes edges))).contains x)),
          (u, x) ∈ (restrictedEdges
            (collectReachableNodeIds startNodeId (sanitizePipelineGraph nodes edges))
            (sanitizePipelineGraph nodes edges)).map edgePair := by
      intro x hx
      rcases (hSmem x).1 hx with ⟨hxR, hxF⟩
      rcases hK.blocked x hxR hxF with ⟨e, he, htgt, hsrcR, hsrcF⟩
      refine ⟨e.source_node_id, (hSmem _).2 ⟨hsrcR, hsrcF⟩, ?_⟩
      exact (mem_edgePairs_iff _ _ _).2 ⟨e, he, rfl, htgt⟩
    rcases exists_cycle_of_pred _ _ hSne hstep with ⟨z, hzS, hcycR⟩
    have hzR := ((hSmem z).1 hzS).1
    refine iff_of_true rfl ⟨z, (hriff z).1 hzR, ?_⟩
    refine Relation.TransGen.mono ?_ hcycR
    intro u v h
    exact pair_mem_of_restricted _ _ _ _ h
  · rw [if_neg hlen]
    have hmemiff := mem_iff_of_nodup_subset_length _ _ hK.nodup hRnd hK.mem_R
      (by omega)
    refine iff_of_false (by simp) ?_
    rintro ⟨z, hz, hcyc⟩
    have hzR : z ∈ collectReachableNodeIds startNodeId
        (sanitizePipelineGraph nodes edges) := (hriff z).2 hz
    have hcyc2 := transGen_restrict_to_R (sanitizePipelineGraph nodes edges)
      startNodeId
      (collectReachableNodeIds startNodeId (sanitizePipelineGraph nodes edges))
      (fun x hx => (hriff x).2 hx) z z hcyc hz
    have := transGen_pos_lt
      (restrictedEdges
        (collectReachableNodeIds startNodeId (sanitizePipelineGraph nodes edges))
        (sanitizePipelineGraph nodes edges))
      (kahnResultIds nodes (sanitizePipelineGraph nodes edges)
        (collectReachableNodeIds startNodeId (sanitizePipelineGraph nodes edges)))
      hK.topo z z hcyc2 ((hmemiff z).2 hzR)
    omega

/-- Nodes of the C2 counterexample: a single node with the empty identity. -/
def emptyIdNode : PipelineNode := ⟨"", .ingest, "Start", 0, 0, []⟩

/-- C2 counterexample: with node list `[emptyIdNode]` (distinct identities)
and start node `""` (present in the node list), `build_plan` succeeds but
returns an empty `ordered_nodes`, although the start node is reachable from
itself by the empty directed path, so the claim demands its full record in
`ordered_nodes`.  The JS truthiness guard `!current` in the traversal skips
the empty-string id. -/
theorem claim_C2_counterexample :
    ([emptyIdNode].map (·.id)).Nodup ∧
    "" ∈ [emptyIdNode].map (·.id) ∧
    buildPipelineExecutionPlan [emptyIdNode] [] "" = .ok ⟨[], []⟩ ∧
    Reaches (edgePairs (sanitizePipelineGraph [emptyIdNode] [])) "" "" := by
  refine ⟨by decide, by decide, ?_, .refl⟩
  simp [buildPipelineExecutionPlan, nodeMapGet, sanitizePipelineGraph, sanitizeAux,
    collectReachableNodeIds, collectLoop, buildOutgoingEdgeMap,
    topologicalSortReachableNodes, restrictedEdges, initIndegree, incrIndegree,
    kahnLoop, processTargets, jsSortByIndex, getAssoc, setAssoc,
    buildStableOrderIndex, stableLe, List.insertionSort, List.orderedInsert,
    edgeKey, validEdgeB, List.find?, List.filter, List.foldl, emptyIdNode,
    cyclicGraphMessage]

/-- Node/edge lists of the spec's linear scenario, used as the C2 witness. -/
def linearNodes : List PipelineNode :=
  [⟨"a", .ingest, "A", 0, 0, []⟩, ⟨"b", .filter, "B", 0, 0, []⟩,
   ⟨"c", .train, "C", 0, 0, []⟩]

/-- Edges of the linear scenario `a → b → c`. -/
def linearEdges : List PipelineEdge :=
  [⟨"e1", "a", "b"⟩, ⟨"e2", "b", "c"⟩]

/-- C2 witness: instantiating the amended claim on the spec's scenario
(nodes `a → b → c`, start `a`), where `build_plan` succeeds with all three
nodes in order, yields that `c` is reachable from `a`. -/
theorem claim_C2_witness :
    Reaches (edgePairs (sanitizePipelineGraph linearNodes linearEdges)) "a" "c" := by
  have hok : buildPipelineExecutionPlan linearNodes linearEdges "a" =
      .ok ⟨linearNodes, ["a", "b", "c"]⟩ := by
    simp [buildPipelineExecutionPlan, nodeMapGet, sanitizePipelineGraph, sanitizeAux,
      collectReachableNodeIds, collectLoop, buildOutgoingEdgeMap,
      topologicalSortReachableNodes, restrictedEdges, initIndegree, incrIndegree,
      kahnLoop, processTargets, jsSortByIndex, getAssoc, setAssoc,
      buildStableOrderIndex, stableLe, List.insertionSort, List.orderedInsert,
      edgeKey, validEdgeB, List.find?, List.filter, List.foldl, linearNodes,
      linearEdges, cyclicGraphMessage]
  have h := claim_C2_plan_reachable_topological linearNodes linearEdges "a"
    ⟨linearNodes, ["a", "b", "c"]⟩ (by decide) (by decide) (by decide) hok
  exact (h.2.2.1 "c").1 (by decide)

/-- Nodes of the C3 counterexample: an empty-identity node on a cycle. -/
def cycleEmptyNodes : List PipelineNode :=
  [⟨"", .ingest, "S", 0, 0, []⟩, ⟨"a", .filter, "A", 0, 0, []⟩]

/-- Edges of the C3 counterexample: the mutual pair `"" → a`, `a → ""`. -/
def cycleEmptyEdges : List PipelineEdge :=
  [⟨"e1", "", "a"⟩, ⟨"e2", "a", ""⟩]

/-- C3 counterexample: starting from `""` (present in the node list), the
sanitized graph has the reachable 2-node cycle `"" → a → ""`, so the claim
demands a `CyclicGraph` failure; but the traversal's truthiness guard skips
the empty-string id, the code sees an empty reachable set, and `build_plan`
succeeds. -/
theorem claim_C3_counterexample :
    "" ∈ cycleEmptyNodes.map (·.id) ∧
    buildPipelineExecutionPlan cycleEmptyNodes cycleEmptyEdges "" = .ok ⟨[], []⟩ ∧
    (∃ z, Reaches (edgePairs (sanitizePipelineGraph cycleEmptyNodes cycleEmptyEdges))
        "" z ∧
      Relation.TransGen
        (fun u v =>
          (u, v) ∈ edgePairs (sanitizePipelineGraph cycleEmptyNodes cycleEmptyEdges))
        z z) := by
  refine ⟨by decide, ?_, "", .refl, ?_⟩
  · simp [buildPipelineExecutionPlan, nodeMapGet, sanitizePipelineGraph, sanitizeAux,
      collectReachableNodeIds, collectLoop, buildOutgoingEdgeMap,
      topologicalSortReachableNodes, restrictedEdges, initIndegree, incrIndegree,
      kahnLoop, processTargets, jsSortByIndex, getAssoc, setAssoc,
      buildStableOrderIndex, stableLe, List.insertionSort, List.orderedInsert,
      edgeKey, validEdgeB, List.find?, List.filter, List.foldl, cycleEmptyNodes,
      cycleEmptyEdges, cyclicGraphMessage]
  · exact Relation.TransGen.head
      (show ("", "a") ∈
        edgePairs (sanitizePipelineGraph cycleEmptyNodes cycleEmptyEdges) by decide)
      (Relation.TransGen.single
        (show ("a", "") ∈
          edgePairs (sanitizePipelineGraph cycleEmptyNodes cycleEmptyEdges) by decide))

/-- Nodes of the mutual-cycle scenario used as the C3 witness. -/
def mutualNodes : List PipelineNode :=
  [⟨"a", .ingest, "A", 0, 0, []⟩, ⟨"b", .filter, "B", 0, 0, []⟩]

/-- Edges of the mutual-cycle scenario `a → b`, `b → a`. -/
def mutualEdges : List PipelineEdge :=
  [⟨"e1", "a", "b"⟩, ⟨"e2", "b", "a"⟩]

/-- C3 witness: on the reachable 2-node mutual edge pair the amended claim's
forward direction produces a reachable directed cycle from the observed
`CyclicGraph` failure. -/
theorem claim_C3_witness :
    ∃ z, Reaches (edgePairs (sanitizePipelineGraph mutualNodes mutualEdges)) "a" z ∧
      Relation.TransGen
        (fun u v => (u, v) ∈ edgePairs (sanitizePipelineGraph mutualNodes mutualEdges))
        z z := by
  apply (claim_C3_cycle_iff mutualNodes mutualEdges "a" (by decide) (by decide)).1
  simp [buildPipelineExecutionPlan, nodeMapGet, sanitizePipelineGraph, sanitizeAux,
    collectReachableNodeIds, collectLoop, buildOutgoingEdgeMap,
    topologicalSortReachableNodes, restrictedEdges, initIndegree, incrIndegree,
    kahnLoop, processTargets, jsSortByIndex, getAssoc, setAssoc,
    buildStableOrderIndex, stableLe, List.insertionSort, List.orderedInsert,
    edgeKey, validEdgeB, List.find?, List.filter, List.foldl, mutualNodes,
    mutualEdges, cyclicGraphMessage]

/-! ## Determinism of the planner (claim C1) -/

theorem getAssoc_incrIndegree_none (restricted : List PipelineEdge) :
    ∀ (m0 : List (String × Int)) (x : String),
    getAssoc m0 x = none → (∀ e ∈ restricted, e.target_node_id ≠ x) →
    getAssoc (incrIndegree restricted m0) x = none := by
  induction restricted with
  | nil =>
    intro m0 x h _
    simpa [incrIndegree] using h
  | cons e rest ih =>
    intro m0 x h htgt
    unfold incrIndegree at ih ⊢
    rw [List.foldl_cons]
    refine ih _ x ?_ (fun e2 he2 => htgt e2 (List.mem_cons_of_mem _ he2))
    rw [getAssoc_setAssoc,
      if_neg (fun hc => htgt e (List.mem_cons_self _ _) hc.symm)]
    exact h

theorem buildStableOrderIndex_isSome_iff (nodes : List PipelineNode) (x : String) :
    (buildStableOrderIndex nodes x).isSome ↔ x ∈ nodes.map (·.id) := by
  induction nodes with
  | nil => simp [buildStableOrderIndex]
  | cons n rest ih =>
    simp only [buildStableOrderIndex, List.map_cons, List.mem_cons]
    cases h : buildStableOrderIndex rest x with
    | some i =>
      simp only [Option.isSome_some, true_iff]
      exact Or.inr (ih.1 (by rw [h]; rfl))
    | none =>
      by_cases hx : n.id = x
      · simp [hx]
      · rw [if_neg hx]
        refine iff_of_false (by simp) ?_
        rintro (hc | hc)
        · exact hx hc.symm
        · have := ih.2 hc
          rw [h] at this
          cases this

theorem buildStableOrderIndex_inj (nodes : List PipelineNode) :
    ∀ (a b : String) (i : Nat), buildStableOrderIndex nodes a = some i →
    buildStableOrderIndex nodes b = some i → a = b := by
  induction nodes with
  | nil =>
    intro a b i ha _
    simp [buildStableOrderIndex] at ha
  | cons n rest ih =>
    intro a b i ha hb
    simp only [buildStableOrderIndex] at ha hb
    cases hra : buildStableOrderIndex rest a with
    | some j =>
      rw [hra] at ha
      simp only [Option.some.injEq] at ha
      cases hrb : buildStableOrderIndex rest b with
      | some k =>
        rw [hrb] at hb
        simp only [Option.some.injEq] at hb
        have hjk : j = k := by omega
        exact ih a b j hra (hjk ▸ hrb)
      | none =>
        rw [hrb] at hb
        by_cases hnb : n.id = b
        · rw [if_pos hnb] at hb
          simp only [Option.some.injEq] at hb
          omega
        · rw [if_neg hnb] at hb
          cases hb
    | none =>
      rw [hra] at ha
      cases hrb : buildStableOrderIndex rest b with
      | some k =>
        rw [hrb] at hb
        simp only [Option.some.injEq] at hb
        by_cases hna : n.id = a
        · rw [if_pos hna] at ha
          simp only [Option.some.injEq] at ha
          omega
        · rw [if_neg hna] at ha
          cases ha
      | none =>
        rw [hrb] at hb
        by_cases hna : n.id = a
        · by_cases hnb : n.id = b
          · rw [← hna, ← hnb]
          · rw [if_neg hnb] at hb
            cases hb
        · rw [if_neg hna] at ha
          cases ha

theorem orderIndex_key_inj (nodes : List PipelineNode) (a b : String)
    (ha : a ∈ nodes.map (·.id)) (hb : b ∈ nodes.map (·.id))
    (hk : ((buildStableOrderIndex nodes a).getD 0) =
      ((buildStableOrderIndex nodes b).getD 0)) : a = b := by
  rcases Option.isSome_iff_exists.1 ((buildStableOrderIndex_isSome_iff nodes a).2 ha)
    with ⟨i, hi⟩
  rcases Option.isSome_iff_exists.1 ((buildStableOrderIndex_isSome_iff nodes b).2 hb)
    with ⟨j, hj⟩
  rw [hi, hj] at hk
  simp only [Option.getD_some] at hk
  exact buildStableOrderIndex_inj nodes a b i hi (hk ▸ hj)

theorem sorted_perm_eq (oi : String → Option Nat) :
    ∀ (l1 l2 : List String), l1.Sorted (stableLe oi) → l2.Sorted (stableLe oi) →
    l1.Perm l2 →
    (∀ a ∈ l1, ∀ b ∈ l1, (oi a).getD 0 = (oi b).getD 0 → a = b) → l1 = l2 := by
  intro l1
  induction l1 with
  | nil =>
    intro l2 _ _ hp _
    exact (List.Perm.eq_nil hp.symm).symm
  | cons a t1 ih =>
    intro l2 hs1 hs2 hp hinj
    cases l2 with
    | nil => exact absurd (List.Perm.eq_nil hp) (by simp)
    | cons b t2 =>
      have hamem : a ∈ b :: t2 := hp.mem_iff.1 (List.mem_cons_self _ _)
      have hbmem : b ∈ a :: t1 := hp.mem_iff.2 (List.mem_cons_self _ _)
      have hab : a = b := by
        rcases List.mem_cons.1 hbmem with h | h
        · exact h.symm
        · have hkey : (oi a).getD 0 = (oi b).getD 0 := by
            rcases List.mem_cons.1 hamem with h2 | h2
            · rw [h2]
            · have h1 : stableLe oi b a := (List.sorted_cons.1 hs2).1 a h2
              have h3 : stableLe oi a b := (List.sorted_cons.1 hs1).1 b h
              exact Nat.le_antisymm h3 h1
          exact hinj a (List.mem_cons_self _ _) b (List.mem_cons_of_mem _ h) hkey
      subst hab
      have hp2 : t1.Perm t2 := hp.cons_inv
      rw [ih t2 (List.sorted_cons.1 hs1).2 (List.sorted_cons.1 hs2).2 hp2
        (fun x hx y hy => hinj x (List.mem_cons_of_mem _ hx)
          y (List.mem_cons_of_mem _ hy))]

theorem jsSort_eq_of_perm (oi : String → Option Nat) (l1 l2 : List String)
    (hp : l1.Perm l2)
    (hinj : ∀ a ∈ l1, ∀ b ∈ l1, (oi a).getD 0 = (oi b).getD 0 → a = b) :
    jsSortByIndex oi l1 = jsSortByIndex oi l2 := by
  haveI : IsTotal String (stableLe oi) := ⟨fun a b => Nat.le_total _ _⟩
  haveI : IsTrans String (stableLe oi) := ⟨fun _ _ _ => Nat.le_trans⟩
  apply sorted_perm_eq oi
  · exact List.sorted_insertionSort _ l1
  · exact List.sorted_insertionSort _ l2
  · exact (List.perm_insertionSort _ l1).trans (hp.trans (List.perm_insertionSort _ l2).symm)
  · intro a ha b hb
    exact hinj a ((mem_jsSortByIndex oi l1 a).1 ha) b ((mem_jsSortByIndex oi l1 b).1 hb)

theorem processTargets_congr (oi : String → Option Nat) :
    ∀ (ts : List String) (ind1 ind2 : List (String × Int)) (q : List String),
    (∀ x, getAssoc ind1 x = getAssoc ind2 x) →
    (processTargets oi ts ind1 q).2 = (processTargets oi ts ind2 q).2 ∧
      (∀ x, getAssoc (processTargets oi ts ind1 q).1 x =
        getAssoc (processTargets oi ts ind2 q).1 x) := by
  intro ts
  induction ts with
  | nil =>
    intro ind1 ind2 q h
    exact ⟨rfl, h⟩
  | cons t ts ih =>
    intro ind1 ind2 q h
    have hd : (getAssoc ind1 t).getD 0 - 1 = (getAssoc ind2 t).getD 0 - 1 := by
      rw [h t]
    have hset : ∀ x, getAssoc (setAssoc ind1 t ((getAssoc ind1 t).getD 0 - 1)) x =
        getAssoc (setAssoc ind2 t ((getAssoc ind2 t).getD 0 - 1)) x := by
      intro x
      rw [getAssoc_setAssoc, getAssoc_setAssoc, hd]
      by_cases hxt : x = t
      · rw [if_pos hxt, if_pos hxt]
      · rw [if_neg hxt, if_neg hxt, h x]
    by_cases h0 : ((getAssoc ind1 t).getD 0 - 1) = 0
    · have h02 : ((getAssoc ind2 t).getD 0 - 1) = 0 := by rw [← hd]; exact h0
      simp only [processTargets, if_pos h0, if_pos h02]
      exact ih _ _ _ hset
    · have h02 : ¬ ((getAssoc ind2 t).getD 0 - 1) = 0 := by rw [← hd]; exact h0
      simp only [processTargets, if_neg h0, if_neg h02]
      exact ih _ _ _ hset

theorem kahnLoop_congr (adj1 adj2 : String → List String) (oi : String → Option Nat)
    (hadj : ∀ s, jsSortByIndex oi (adj1 s) = jsSortByIndex oi (adj2 s)) :
    ∀ (ind1 : List (String × Int)) (queue sorted : List String)
      (ind2 : List (String × Int)),
    (∀ x, getAssoc ind1 x = getAssoc ind2 x) →
    kahnLoop adj1 oi ind1 queue sorted = kahnLoop adj2 oi ind2 queue sorted := by
  intro ind1 queue sorted
  induction ind1, queue, sorted using kahnLoop.induct adj1 oi with
  | case1 ind1 sorted =>
    intro ind2 _
    rw [kahnLoop, kahnLoop]
  | case2 ind1 current rest sorted hcond ih =>
    intro ind2 h
    rw [kahnLoop, kahnLoop, if_pos hcond, if_pos hcond]
    exact ih ind2 h
  | case3 ind1 current rest sorted hcond ih =>
    intro ind2 h
    rw [kahnLoop, kahnLoop, if_neg hcond, if_neg hcond]
    have hpc := processTargets_congr oi (jsSortByIndex oi (adj1 current)) ind1 ind2 rest h
    have hq : (processTargets oi (jsSortByIndex oi (adj1 current)) ind1 rest).2 =
        (processTargets oi (jsSortByIndex oi (adj2 current)) ind2 rest).2 := by
      rw [← hadj current]
      exact hpc.1
    have hi : ∀ x, getAssoc
        (processTargets oi (jsSortByIndex oi (adj1 current)) ind1 rest).1 x =
        getAssoc (processTargets oi (jsSortByIndex oi (adj2 current)) ind2 rest).1 x := by
      rw [← hadj current]
      exact hpc.2
    rw [← hq]
    exact ih _ hi

/-- C1: for a fixed node list, any start node present in it, and any two edge
lists whose sanitized forms are the same edge set, `build_plan` either fails
identically or returns the identical `ordered_nodes` sequence — the result is
independent of the edges' original insertion order.  Ties among
simultaneously-ready nodes are broken by the stable order index (original
position in the input node list), which is what makes the ready-queue sort,
and hence the output, depend only on the edge set. -/
theorem claim_C1_determinism (nodes : List PipelineNode)
    (edgesA edgesB : List PipelineEdge) (startNodeId : String)
    (hstart : startNodeId ∈ nodes.map (·.id))
    (hsame : (sanitizePipelineGraph nodes edgesA).toFinset =
      (sanitizePipelineGraph nodes edgesB).toFinset) :
    (buildPipelineExecutionPlan nodes edgesA startNodeId).map (·.ordered_nodes) =
      (buildPipelineExecutionPlan nodes edgesB startNodeId).map (·.ordered_nodes) := by
  classical
  have hperm : (sanitizePipelineGraph nodes edgesA).Perm
      (sanitizePipelineGraph nodes edgesB) :=
    (List.perm_ext_iff_of_nodup (sanitize_nodup _ _) (sanitize_nodup _ _)).2
      (fun e => by rw [← List.mem_toFinset, hsame, List.mem_toFinset])
  have hpairsiff : ∀ p : String × String,
      p ∈ (sanitizePipelineGraph nodes edgesA).map edgePair ↔
        p ∈ (sanitizePipelineGraph nodes edgesB).map edgePair :=
    fun p => (hperm.map edgePair).mem_iff
  have hRiff : ∀ x, x ∈ collectReachableNodeIds startNodeId
      (sanitizePipelineGraph nodes edgesA) ↔
      x ∈ collectReachableNodeIds startNodeId (sanitizePipelineGraph nodes edgesB) := by
    intro x
    rw [mem_collectReachableNodeIds, mem_collectReachableNodeIds]
    constructor
    · exact CodeReach.mem_of_pairs_iff hpairsiff
    · exact CodeReach.mem_of_pairs_iff (fun q => (hpairsiff q).symm)
  have hRperm : (collectReachableNodeIds startNodeId
      (sanitizePipelineGraph nodes edgesA)).Perm
      (collectReachableNodeIds startNodeId (sanitizePipelineGraph nodes edgesB)) :=
    (List.perm_ext_iff_of_nodup (collectReachableNodeIds_nodup _ _)
      (collectReachableNodeIds_nodup _ _)).2 hRiff
  have hcontains : ∀ y, ((collectReachableNodeIds startNodeId
      (sanitizePipelineGraph nodes edgesA)).contains y) =
      ((collectReachableNodeIds startNodeId
        (sanitizePipelineGraph nodes edgesB)).contains y) := by
    intro y
    apply Bool.coe_iff_coe.mp
    exact List.elem_iff.trans ((hRiff y).trans List.elem_iff.symm)
  have hrestr1 : restrictedEdges (collectReachableNodeIds startNodeId
      (sanitizePipelineGraph nodes edgesA)) (sanitizePipelineGraph nodes edgesA) =
      (sanitizePipelineGraph nodes edgesA).filter (fun e =>
        (collectReachableNodeIds startNodeId
          (sanitizePipelineGraph nodes edgesB)).contains e.source_node_id &&
        (collectReachableNodeIds startNodeId
          (sanitizePipelineGraph nodes edgesB)).contains e.target_node_id) := by
    unfold restrictedEdges
    apply List.filter_congr'
    intro e _
    rw [hcontains e.source_node_id, hcontains e.target_node_id]
  have hrestrperm : (restrictedEdges (collectReachableNodeIds startNodeId
      (sanitizePipelineGraph nodes edgesA)) (sanitizePipelineGraph nodes edgesA)).Perm
      (restrictedEdges (collectReachableNodeIds startNodeId
        (sanitizePipelineGraph nodes edgesB)) (sanitizePipelineGraph nodes edgesB)) := by
    rw [hrestr1]
    exact hperm.filter _
  have hindeq : ∀ x, getAssoc (incrIndegree
      (restrictedEdges (collectReachableNodeIds startNodeId
        (sanitizePipelineGraph nodes edgesA)) (sanitizePipelineGraph nodes edgesA))
      (initIndegree (collectReachableNodeIds startNodeId
        (sanitizePipelineGraph nodes edgesA)))) x =
      getAssoc (incrIndegree
        (restrictedEdges (collectReachableNodeIds startNodeId
          (sanitizePipelineGraph nodes edgesB)) (sanitizePipelineGraph nodes edgesB))
        (initIndegree (collectReachableNodeIds startNodeId
          (sanitizePipelineGraph nodes edgesB)))) x := by
    intro x
    by_cases hxR : x ∈ collectReachableNodeIds startNodeId
        (sanitizePipelineGraph nodes edgesA)
    · have hxRB := (hRiff x).1 hxR
      rw [getAssoc_incrIndegree_some _ _ x 0
          (by rw [getAssoc_initIndegree, if_pos hxR]),
        getAssoc_incrIndegree_some _ _ x 0
          (by rw [getAssoc_initIndegree, if_pos hxRB]),
        hrestrperm.countP_eq]
    · have hxRB : x ∉ collectReachableNodeIds startNodeId
          (sanitizePipelineGraph nodes edgesB) := fun h => hxR ((hRiff x).2 h)
      rw [getAssoc_incrIndegree_none _ _ x
          (by rw [getAssoc_initIndegree, if_neg hxR])
          (fun e he hc => hxR (hc ▸ ((restrictedEdges_mem _ _ e).1 he).2.2)),
        getAssoc_incrIndegree_none _ _ x
          (by rw [getAssoc_initIndegree, if_neg hxRB])
          (fun e he hc => hxRB (hc ▸ ((restrictedEdges_mem _ _ e).1 he).2.2))]
  have hRsub : ∀ x ∈ collectReachableNodeIds startNodeId
      (sanitizePipelineGraph nodes edgesA), x ∈ nodes.map (·.id) := fun x hx =>
    codeReach_mem_ids nodes edgesA startNodeId x hstart
      ((mem_collectReachableNodeIds _ _ _).1 hx)
  have hqueue : jsSortByIndex (buildStableOrderIndex nodes)
      ((collectReachableNodeIds startNodeId
        (sanitizePipelineGraph nodes edgesA)).filter (fun x =>
          ((getAssoc (incrIndegree (restrictedEdges (collectReachableNodeIds
            startNodeId (sanitizePipelineGraph nodes edgesA))
            (sanitizePipelineGraph nodes edgesA))
            (initIndegree (collectReachableNodeIds startNodeId
              (sanitizePipelineGraph nodes edgesA)))) x).getD 0) == 0)) =
      jsSortByIndex (buildStableOrderIndex nodes)
        ((collectReachableNodeIds startNodeId
          (sanitizePipelineGraph nodes edgesB)).filter (fun x =>
            ((getAssoc (incrIndegree (restrictedEdges (collectReachableNodeIds
              startNodeId (sanitizePipelineGraph nodes edgesB))
              (sanitizePipelineGraph nodes edgesB))
              (initIndegree (collectReachableNodeIds startNodeId
                (sanitizePipelineGraph nodes edgesB)))) x).getD 0) == 0)) := by
    rw [List.filter_congr' (fun x _ => by rw [hindeq x])]
    apply jsSort_eq_of_perm
    · exact hRperm.filter _
    · intro a ha b hb hk
      exact orderIndex_key_inj nodes a b (hRsub a (List.mem_filter.1 ha).1)
        (hRsub b (List.mem_filter.1 hb).1) hk
  have hadj : ∀ s, jsSortByIndex (buildStableOrderIndex nodes)
      ((buildOutgoingEdgeMap (restrictedEdges (collectReachableNodeIds startNodeId
        (sanitizePipelineGraph nodes edgesA)) (sanitizePipelineGraph nodes edgesA))) s) =
      jsSortByIndex (buildStableOrderIndex nodes)
        ((buildOutgoingEdgeMap (restrictedEdges (collectReachableNodeIds startNodeId
          (sanitizePipelineGraph nodes edgesB))
          (sanitizePipelineGraph nodes edgesB))) s) := by
    intro s
    apply jsSort_eq_of_perm
    · exact (hrestrperm.filter _).map _
    · intro a ha b hb hk
      rcases (mem_buildOutgoingEdgeMap _ _ _).1 ha with ⟨e, he, _, ht⟩
      rcases (mem_buildOutgoingEdgeMap _ _ _).1 hb with ⟨e2, he2, _, ht2⟩
      exact orderIndex_key_inj nodes a b
        (hRsub a (ht ▸ ((restrictedEdges_mem _ _ e).1 he).2.2))
        (hRsub b (ht2 ▸ ((restrictedEdges_mem _ _ e2).1 he2).2.2)) hk
  have hkahn : kahnResultIds nodes (sanitizePipelineGraph nodes edgesA)
      (collectReachableNodeIds startNodeId (sanitizePipelineGraph nodes edgesA)) =
      kahnResultIds nodes (sanitizePipelineGraph nodes edgesB)
        (collectReachableNodeIds startNodeId (sanitizePipelineGraph nodes edgesB)) := by
    unfold kahnResultIds
    rw [hqueue]
    exact kahnLoop_congr _ _ (buildStableOrderIndex nodes) hadj _ _ _ _ hindeq
  have hRlen : (collectReachableNodeIds startNodeId
      (sanitizePipelineGraph nodes edgesA)).length =
      (collectReachableNodeIds startNodeId
        (sanitizePipelineGraph nodes edgesB)).length := hRperm.length_eq
  rw [buildPlan_eq_of_start_mem nodes edgesA startNodeId hstart,
    buildPlan_eq_of_start_mem nodes edgesB startNodeId hstart,
    topologicalSortReachableNodes_eq, topologicalSortReachableNodes_eq,
    hkahn, hRlen]
  by_cases hc : (kahnResultIds nodes (sanitizePipelineGraph nodes edgesB)
      (collectReachableNodeIds startNodeId
        (sanitizePipelineGraph nodes edgesB))).length ≠
      (collectReachableNodeIds startNodeId
        (sanitizePipelineGraph nodes edgesB)).length
  · rw [if_pos hc]
  · rw [if_neg hc]
    rfl

/-- Alternative insertion order (plus a duplicate) of `linearEdges`. -/
def linearEdgesShuffled : List PipelineEdge :=
  [⟨"e2", "b", "c"⟩, ⟨"e1", "a", "b"⟩, ⟨"e1", "a", "b"⟩]

/-- C1 witness: the two linear-scenario edge lists differ in insertion order
(and one contains a duplicate) yet sanitize to the same edge set, so the
planner returns the identical ordered node sequence. -/
theorem claim_C1_witness :
    (buildPipelineExecutionPlan linearNodes linearEdges "a").map
        (·.ordered_nodes) =
      (buildPipelineExecutionPlan linearNodes linearEdgesShuffled "a").map
        (·.ordered_nodes) := by
  apply claim_C1_determinism
  · decide
  · decide

/-! ## Run orchestrator (`pipeline_run.ts`) -/

/-- `CommandTaskStart` from `types.ts`. -/
structure CommandTaskStart where
  task_id : String
  estimated_total_seconds : Rat
deriving DecidableEq, Repr

/-- `CommandTaskStatus` from `types.ts`.  The status union of string literals
is modelled as `String`; `exit_code` is `null` while running. -/
structure CommandTaskStatus where
  task_id : String
  status : String
  command : String
  args : List String
  exit_code : Option Int
  stdout : String
  stderr : String
  elapsed_seconds : Rat
  estimated_total_seconds : Rat
  remaining_seconds : Rat
  progress_percent : Rat
deriving DecidableEq, Repr

/-- `PipelineProgressSnapshot` from `pipeline_run.ts` (lines 5-14). -/
structure PipelineProgressSnapshot where
  is_running : Bool
  overall_percent : Rat
  pipeline_elapsed_seconds : Rat
  pipeline_remaining_seconds : Rat
  current_step_label : String
  current_step_percent : Rat
  current_step_elapsed_seconds : Rat
  current_step_remaining_seconds : Rat
deriving DecidableEq, Repr

/-- One step's worth of external responses: what `startForgeCommand` returns
for the submission, and the successive `getForgeCommandStatus` responses,
each paired with the `Date.now()` value at its poll tick. -/
structure StepTrace where
  task_start : CommandTaskStart
  polls : List (CommandTaskStatus × Int)
deriving DecidableEq, Repr

/-- Placeholder trace for out-of-range `getD` lookups. -/
def defaultStepTrace : StepTrace := ⟨⟨"", 0⟩, []⟩

/-- Placeholder node for out-of-range `getD` lookups. -/
def defaultPipelineNode : PipelineNode := ⟨"", .custom, "", 0, 0, []⟩

/-- `DEFAULT_NODE_DURATION_SECONDS` / `estimateNodeDurationSeconds`
(`pipeline.ts` lines 3-10 and 229-233); the record is total over the node
type enumeration, so the `?? 30` fallback is unreachable. -/
def estimateNodeDurationSeconds : PipelineNodeType → Rat
  | .ingest => 60
  | .filter => 30
  | .train => 240
  | .«export» => 60
  | .chat => 20
  | .custom => 30

/-- `clamp` (lines 190-198). -/
def clamp (value lo hi : Rat) : Rat :=
  if value < lo then lo
  else if value > hi then hi
  else value

/-- `sum_remaining_estimate` (lines 175-180): `slice(start).reduce(+, 0)`. -/
def sum_remaining_estimate (estimates : List Rat) (start_index : Nat) : Rat :=
  (estimates.drop start_index).foldl (· + ·) 0

/-- `seconds_since` (lines 182-184): `Math.max(0, Math.floor(Δms / 1000))`. -/
def seconds_since (started_at_ms now_ms : Int) : Rat :=
  ((max 0 ((now_ms - started_at_ms).fdiv 1000) : Int) : Rat)

/-- `emit_progress` (lines 122-146) as a pure function of the `WaitTaskOptions`
fields, the poll-tick clock value, and the polled status. -/
def emit_progress (node_index node_count : Nat) (node_title : String)
    (estimated_step_seconds : List Rat) (started_at_ms now_ms : Int)
    (task_status : CommandTaskStatus) : PipelineProgressSnapshot :=
  let current_step_percent : Rat :=
    if task_status.status = "running" then task_status.progress_percent else 100
  let overall_percent :=
    (((node_index : Rat) + current_step_percent / 100) / ((node_count : Nat) : Rat)) * 100
  let future_remaining_seconds :=
    sum_remaining_estimate estimated_step_seconds (node_index + 1)
  { is_running := task_status.status == "running"
    overall_percent := clamp overall_percent 0 100
    pipeline_elapsed_seconds := seconds_since started_at_ms now_ms
    pipeline_remaining_seconds :=
      task_status.remaining_seconds + future_remaining_seconds
    current_step_label :=
      toString (node_index + 1) ++ "/" ++ toString node_count ++ ": " ++ node_title
    current_step_percent := current_step_percent
    current_step_elapsed_seconds := task_status.elapsed_seconds
    current_step_remaining_seconds := task_status.remaining_seconds }

/-- `wait_for_task` (lines 109-120) driven by the environment's poll trace:
returns the emitted snapshots (one per poll) and the first non-`"running"`
status; `none` models a trace exhausted while still running (the real loop
would still be awaiting the status provider). -/
def wait_for_task (node_index node_count : Nat) (node_title : String)
    (estimated_step_seconds : List Rat) (started_at_ms : Int) :
    List (CommandTaskStatus × Int) →
      List PipelineProgressSnapshot × Option CommandTaskStatus
  | [] => ([], none)
  | (st, now) :: rest =>
    let snap := emit_progress node_index node_count node_title
      estimated_step_seconds started_at_ms now st
    if st.status ≠ "running" then ([snap], some st)
    else
      ((snap :: (wait_for_task node_index node_count node_title
        estimated_step_seconds started_at_ms rest).1),
        (wait_for_task node_index node_count node_title
          estimated_step_seconds started_at_ms rest).2)

/-- JS `String.prototype.trim`: strip leading and trailing whitespace
(modelled over the character list so that it evaluates by reduction). -/
def jsTrim (s : String) : String :=
  String.mk (((s.data.dropWhile Char.isWhitespace).reverse.dropWhile
    Char.isWhitespace).reverse)

/-- JS `String.prototype.startsWith` over the character lists. -/
def jsStartsWith (s pre : String) : Bool := pre.data.isPrefixOf s.data

/-- JS `String.prototype.endsWith` over the character lists. -/
def jsEndsWith (s suf : String) : Bool := suf.data.isSuffixOf s.data

/-- `append_command_output` (lines 148-161). -/
def append_command_output (log_chunks : List String) (data_root : String)
    (args : List String) (task_status : CommandTaskStatus) : List String :=
  let l1 := log_chunks ++
    ["$ forge --data-root " ++ data_root ++ " " ++ String.intercalate " " args]
  let l2 := if (jsTrim task_status.stdout).length > 0 then
      l1 ++ [jsTrim task_status.stdout]
    else l1
  if (jsTrim task_status.stderr).length > 0 then l2 ++ [jsTrim task_status.stderr]
  else l2

/-- JS `String.prototype.split` with a single-character separator, on the
character list. -/
def jsSplitList (sep : Char) : List Char → List (List Char)
  | [] => [[]]
  | c :: rest =>
    match jsSplitList sep rest with
    | [] => [[c]]
    | h :: t => if c = sep then [] :: h :: t else (c :: h) :: t

/-- JS `String.prototype.split` with a single-character separator. -/
def jsSplit (sep : Char) (s : String) : List String :=
  (jsSplitList sep s.data).map (fun l => String.mk l)

/-- `parse_history_path` (lines 163-173).  `line.split("=")[1]` is only
evaluated under the `line.includes("=")` guard, where the index is in range;
the model supplies a default for totality. -/
def parse_history_path (stdout : String) : Option String :=
  match (jsSplit '\n' stdout).find?
      (fun row => jsStartsWith row "history_path=" ||
        jsEndsWith row "history.json") with
  | none => none
  | some line =>
    if line.data.contains '=' then some (jsTrim ((jsSplit '=' line).getD 1 ""))
    else some (jsTrim line)

/-- The value the claim says is recorded from a marker line: the trimmed
segment between the first `"="` and the next `"="` (or the end of the line)
when the line contains `"="` anywhere, the whole trimmed line otherwise. -/
def historyMarkerValue (line : String) : String :=
  if line.data.contains '=' then
    jsTrim (String.mk (((line.data.dropWhile (fun c => c ≠ '=')).drop 1).takeWhile
      (fun c => c ≠ '=')))
  else
    jsTrim line

/-- The claim's description of `parse_history_path`: find the first line that
starts with `"history_path="` or ends with `"history.json"` and extract the
marker value from it. -/
def parse_history_path_spec (stdout : String) : Option String :=
  ((jsSplit '\n' stdout).find?
    (fun row => jsStartsWith row "history_path=" ||
      jsEndsWith row "history.json")).map
    historyMarkerValue

/-- Observable outcome of a run.  `failed` carries, alongside the thrown
message, the console log and history path at the moment of the throw (the
source discards them with the exception; keeping them makes the
appended-before-failure sequencing statable).  `stalled` models an
environment that stopped answering (no submission response, or a poll trace
exhausted while `"running"`); the real loop would still be suspended. -/
inductive RunExit where
  | ok (console_output : String) (history_path : Option String)
  | failed (message : String) (log_chunks : List String)
      (history_path : Option String)
  | stalled
deriving DecidableEq, Repr

/-- Everything observable about a run: the snapshots delivered to the
progress sink in order, the argument lists submitted to the launcher in
order, and the outcome. -/
structure RunTraceResult where
  snapshots : List PipelineProgressSnapshot
  submitted_args : List (List String)
  outcome : RunExit
deriving DecidableEq, Repr

/-- The `for` loop of `runPipelineInBackground` (lines 54-76) and its success
epilogue (lines 78-96), driven by the per-step environment traces.  `toArgs`
abstracts the Command Translator `toForgeArgs` (an external collaborator per
spec section 6). -/
def runLoop (toArgs : PipelineNode → List String) (data_root : String)
    (node_count : Nat) (started_at_ms end_now_ms : Int) :
    List PipelineNode → Nat → List StepTrace → List Rat → List String →
      Option String → RunTraceResult
  | [], _, _, _, log_chunks, history_path =>
    { snapshots := [
        { is_running := false
          overall_percent := 100
          pipeline_elapsed_seconds := seconds_since started_at_ms end_now_ms
          pipeline_remaining_seconds := 0
          current_step_label := "Pipeline complete"
          current_step_percent := 100
          current_step_elapsed_seconds := 0
          current_step_remaining_seconds := 0 }]
      submitted_args := []
      outcome := .ok
        (if log_chunks.length > 0 then String.intercalate "\n" log_chunks ++ "\n"
         else "Pipeline completed with no output.")
        history_path }
  | node :: restNodes, index, traces, estimated_step_seconds, log_chunks,
      history_path =>
    match traces with
    | [] => ⟨[], [], .stalled⟩
    | trace :: restTraces =>
      let args := toArgs node
      let estimated2 := estimated_step_seconds.set index
        (max (estimated_step_seconds.getD index 0)
          trace.task_start.estimated_total_seconds)
      let w := wait_for_task index node_count node.title estimated2 started_at_ms
        trace.polls
      match w.2 with
      | none => ⟨w.1, [args], .stalled⟩
      | some task_status =>
        let log2 := append_command_output log_chunks data_root args task_status
        let history2 := (parse_history_path task_status.stdout).or history_path
        if task_status.status ≠ "completed" ∨ task_status.exit_code ≠ some 0 then
          ⟨w.1, [args],
            .failed ("Command failed: " ++ String.intercalate " " args) log2
              history2⟩
        else
          ⟨w.1 ++ (runLoop toArgs data_root node_count started_at_ms end_now_ms
              restNodes (index + 1) restTraces estimated2 log2 history2).snapshots,
            args :: (runLoop toArgs data_root node_count started_at_ms end_now_ms
              restNodes (index + 1) restTraces estimated2 log2
              history2).submitted_args,
            (runLoop toArgs data_root node_count started_at_ms end_now_ms
              restNodes (index + 1) restTraces estimated2 log2 history2).outcome⟩

/-- `runPipelineInBackground` (lines 40-97), with the external world supplied
explicitly: the Command Translator, the run clock (initial and final
`Date.now()` values), and the per-step launcher/poll responses. -/
def runPipelineInBackground (toArgs : PipelineNode → List String)
    (data_root : String) (nodes : List PipelineNode)
    (started_at_ms end_now_ms : Int) (traces : List StepTrace) : RunTraceResult :=
  if nodes.length = 0 then ⟨[], [], .ok "" none⟩
  else
    runLoop toArgs data_root nodes.length started_at_ms end_now_ms nodes 0 traces
      (nodes.map (fun node => estimateNodeDurationSeconds node.type)) [] none

/-- First non-`"running"` status in a poll trace: the status `wait_for_task`
returns when driven by that trace. -/
def pollTerminal (polls : List (CommandTaskStatus × Int)) : Option CommandTaskStatus :=
  (polls.map Prod.fst).find? (fun st => st.status != "running")

/-- The poll ticks `wait_for_task` consumes: everything up to and including
the first non-`"running"` status (the whole trace if none). -/
def ticksUpToTerminal : List (CommandTaskStatus × Int) → List (CommandTaskStatus × Int)
  | [] => []
  | p :: rest =>
    if p.1.status ≠ "running" then [p] else p :: ticksUpToTerminal rest

/-- A step trace that completes its command: terminal status `"completed"`
with exit code `0`.  The run loop proceeds past a step exactly when this
holds. -/
def stepGood (tr : StepTrace) : Bool :=
  match pollTerminal tr.polls with
  | some st => st.status == "completed" && st.exit_code == some 0
  | none => false

theorem wait_for_task_snd (i n : Nat) (t : String) (est : List Rat) (s : Int)
    (polls : List (CommandTaskStatus × Int)) :
    (wait_for_task i n t est s polls).2 = pollTerminal polls := by
  induction polls with
  | nil => rfl
  | cons p rest ih =>
    obtain ⟨st, now⟩ := p
    by_cases h : st.status = "running"
    · simp [wait_for_task, pollTerminal, h, List.find?] at ih ⊢
      exact ih
    · have hb : (st.status != "running") = true := bne_iff_ne.2 h
      simp [wait_for_task, pollTerminal, h, hb, List.find?]

theorem wait_for_task_fst (i n : Nat) (t : String) (est : List Rat) (s : Int)
    (polls : List (CommandTaskStatus × Int)) :
    (wait_for_task i n t est s polls).1 =
      (ticksUpToTerminal polls).map (fun p => emit_progress i n t est s p.2 p.1) := by
  induction polls with
  | nil => rfl
  | cons p rest ih =>
    obtain ⟨st, now⟩ := p
    by_cases h : st.status = "running"
    · simp only [wait_for_task, ticksUpToTerminal, h]
      simp [ih]
    · simp [wait_for_task, ticksUpToTerminal, h]

/-- C8: on the empty node list the run returns empty console output and no
history path, submits nothing, polls nothing, and never calls the progress
sink — whatever the environment would have answered. -/
theorem claim_C8_empty_run (toArgs : PipelineNode → List String)
    (data_root : String) (started_at_ms end_now_ms : Int)
    (traces : List StepTrace) :
    runPipelineInBackground toArgs data_root [] started_at_ms end_now_ms traces =
      ⟨[], [], .ok "" none⟩ := rfl

theorem jsSplitList_ne_nil (sep : Char) : ∀ l : List Char, jsSplitList sep l ≠ [] := by
  intro l
  induction l with
  | nil => simp [jsSplitList]
  | cons c rest ih =>
    rcases h : jsSplitList sep rest with _ | ⟨hd, tl⟩
    · exact absurd h ih
    · by_cases hc : c = sep
      · simp [jsSplitList, h, hc]
      · simp [jsSplitList, h, hc]

theorem jsSplitList_head (sep : Char) : ∀ l : List Char,
    (jsSplitList sep l).getD 0 [] = l.takeWhile (fun c => c ≠ sep) := by
  intro l
  induction l with
  | nil => simp [jsSplitList]
  | cons c rest ih =>
    rcases h : jsSplitList sep rest with _ | ⟨hd, tl⟩
    · exact absurd h (jsSplitList_ne_nil sep rest)
    · rw [h] at ih
      simp only [List.getD_cons_zero] at ih
      by_cases hc : c = sep
      · subst hc
        simp [jsSplitList, h, List.takeWhile_cons]
      · simp [jsSplitList, h, hc, List.takeWhile_cons, ih]

theorem jsSplitList_get1 (sep : Char) : ∀ l : List Char, sep ∈ l →
    (jsSplitList sep l).getD 1 [] =
      ((l.dropWhile (fun c => c ≠ sep)).drop 1).takeWhile (fun c => c ≠ sep) := by
  intro l
  induction l with
  | nil => simp
  | cons c rest ih =>
    intro hmem
    rcases h : jsSplitList sep rest with _ | ⟨hd, tl⟩
    · exact absurd h (jsSplitList_ne_nil sep rest)
    · by_cases hc : c = sep
      · subst hc
        have hh := jsSplitList_head c rest
        rw [h] at hh
        simp only [List.getD_cons_zero] at hh
        simp [jsSplitList, h, List.dropWhile_cons, hh]
      · have hmem' : sep ∈ rest := by
          rcases List.mem_cons.1 hmem with h1 | h1
          · exact absurd h1.symm hc
          · exact h1
        have hrec := ih hmem'
        rw [h] at hrec
        simp [jsSplitList, h, hc, List.dropWhile_cons]
        simpa using hrec

theorem getD_map_mk : ∀ (l : List (List Char)) (n : Nat),
    (l.map (fun cs => String.mk cs)).getD n "" = String.mk (l.getD n []) := by
  intro l
  induction l with
  | nil => intro n; cases n <;> rfl
  | cons x xs ih =>
    intro n
    cases n with
    | zero => rfl
    | succ m => simpa using ih m

/-- C10: the recorded history path is derived from the first stdout line that
starts with "history_path=" or ends with "history.json"; if that line contains
"=" anywhere the recorded value is the trimmed segment between the first "="
and the next "=" (or end of line), otherwise the whole trimmed line; no
matching line yields no recorded value (leaving the previous one in place at
the run level). -/
theorem claim_C10_parse_history_path (stdout : String) :
    parse_history_path stdout = parse_history_path_spec stdout := by
  unfold parse_history_path parse_history_path_spec
  rcases hf : (jsSplit '\n' stdout).find?
      (fun row => jsStartsWith row "history_path=" ||
        jsEndsWith row "history.json")
    with _ | line
  · rfl
  · show (if line.data.contains '=' = true
          then some (jsTrim ((jsSplit '=' line).getD 1 ""))
          else some (jsTrim line)) =
        some (historyMarkerValue line)
    unfold historyMarkerValue
    by_cases hc : line.data.contains '=' = true
    · rw [if_pos hc, if_pos hc]
      have hmem : '=' ∈ line.data := by
        simpa [List.contains] using hc
      have h1 : (jsSplit '=' line).getD 1 "" =
          String.mk ((jsSplitList '=' line.data).getD 1 []) := getD_map_mk _ _
      rw [h1, jsSplitList_get1 '=' line.data hmem]
    · rw [if_neg hc, if_neg hc]

theorem getLast?_cons_or {α : Type} (a : α) (l : List α) :
    (a :: l).getLast? = l.getLast?.or (some a) := by
  induction l generalizing a with
  | nil => rfl
  | cons b t ih =>
    rw [List.getLast?_cons_cons, ih b, Option.or_assoc]
    rfl

theorem getLast?_filterMap_or {α β : Type} (f : α → Option β) (x : α)
    (l : List α) (o : Option β) :
    ((x :: l).filterMap f).getLast?.or o =
      ((l.filterMap f).getLast?).or ((f x).or o) := by
  rcases hf : f x with _ | b
  · rw [List.filterMap_cons_none hf]
    rfl
  · rw [List.filterMap_cons_some hf, getLast?_cons_or, Option.or_assoc]

/-- One unfolding of the run loop on a non-empty node list with an available
step trace, with the returned status expressed through `pollTerminal`. -/
theorem runLoop_cons (toArgs : PipelineNode → List String) (dr : String)
    (n : Nat) (s e : Int) (node : PipelineNode) (restNodes : List PipelineNode)
    (index : Nat) (trace : StepTrace) (restTraces : List StepTrace)
    (est : List Rat) (log : List String) (hist : Option String) :
    runLoop toArgs dr n s e (node :: restNodes) index (trace :: restTraces)
        est log hist =
      (match pollTerminal trace.polls with
      | none =>
        ⟨(wait_for_task index n node.title
            (est.set index (max (est.getD index 0)
              trace.task_start.estimated_total_seconds)) s trace.polls).1,
          [toArgs node], .stalled⟩
      | some st =>
        if st.status ≠ "completed" ∨ st.exit_code ≠ some 0 then
          ⟨(wait_for_task index n node.title
              (est.set index (max (est.getD index 0)
                trace.task_start.estimated_total_seconds)) s trace.polls).1,
            [toArgs node],
            .failed ("Command failed: " ++ String.intercalate " " (toArgs node))
              (append_command_output log dr (toArgs node) st)
              ((parse_history_path st.stdout).or hist)⟩
        else
          ⟨(wait_for_task index n node.title
              (est.set index (max (est.getD index 0)
                trace.task_start.estimated_total_seconds)) s trace.polls).1 ++
              (runLoop toArgs dr n s e restNodes (index + 1) restTraces
                (est.set index (max (est.getD index 0)
                  trace.task_start.estimated_total_seconds))
                (append_command_output log dr (toArgs node) st)
                ((parse_history_path st.stdout).or hist)).snapshots,
            toArgs node :: (runLoop toArgs dr n s e restNodes (index + 1)
              restTraces
              (est.set index (max (est.getD index 0)
                trace.task_start.estimated_total_seconds))
              (append_command_output log dr (toArgs node) st)
              ((parse_history_path st.stdout).or hist)).submitted_args,
            (runLoop toArgs dr n s e restNodes (index + 1) restTraces
              (est.set index (max (est.getD index 0)
                trace.task_start.estimated_total_seconds))
              (append_command_output log dr (toArgs node) st)
              ((parse_history_path st.stdout).or hist)).outcome⟩) := by
  simp only [runLoop, wait_for_task_snd]

theorem runLoop_cons_stall (toArgs : PipelineNode → List String) (dr : String)
    (n : Nat) (s e : Int) (node : PipelineNode) (restNodes : List PipelineNode)
    (index : Nat) (trace : StepTrace) (restTraces : List StepTrace)
    (est : List Rat) (log : List String) (hist : Option String)
    (hterm : pollTerminal trace.polls = none) :
    runLoop toArgs dr n s e (node :: restNodes) index (trace :: restTraces)
        est log hist =
      ⟨(wait_for_task index n node.title
          (est.set index (max (est.getD index 0)
            trace.task_start.estimated_total_seconds)) s trace.polls).1,
        [toArgs node], .stalled⟩ := by
  rw [runLoop_cons, hterm]

theorem runLoop_cons_fail (toArgs : PipelineNode → List String) (dr : String)
    (n : Nat) (s e : Int) (node : PipelineNode) (restNodes : List PipelineNode)
    (index : Nat) (trace : StepTrace) (restTraces : List StepTrace)
    (est : List Rat) (log : List String) (hist : Option String)
    (st : CommandTaskStatus) (hterm : pollTerminal trace.polls = some st)
    (hfail : st.status ≠ "completed" ∨ st.exit_code ≠ some 0) :
    runLoop toArgs dr n s e (node :: restNodes) index (trace :: restTraces)
        est log hist =
      ⟨(wait_for_task index n node.title
          (est.set index (max (est.getD index 0)
            trace.task_start.estimated_total_seconds)) s trace.polls).1,
        [toArgs node],
        .failed ("Command failed: " ++ String.intercalate " " (toArgs node))
          (append_command_output log dr (toArgs node) st)
          ((parse_history_path st.stdout).or hist)⟩ := by
  rw [runLoop_cons, hterm]
  exact if_pos hfail

theorem runLoop_cons_ok (toArgs : PipelineNode → List String) (dr : String)
    (n : Nat) (s e : Int) (node : PipelineNode) (restNodes : List PipelineNode)
    (index : Nat) (trace : StepTrace) (restTraces : List StepTrace)
    (est : List Rat) (log : List String) (hist : Option String)
    (st : CommandTaskStatus) (hterm : pollTerminal trace.polls = some st)
    (hgood : ¬(st.status ≠ "completed" ∨ st.exit_code ≠ some 0)) :
    runLoop toArgs dr n s e (node :: restNodes) index (trace :: restTraces)
        est log hist =
      ⟨(wait_for_task index n node.title
          (est.set index (max (est.getD index 0)
            trace.task_start.estimated_total_seconds)) s trace.polls).1 ++
          (runLoop toArgs dr n s e restNodes (index + 1) restTraces
            (est.set index (max (est.getD index 0)
              trace.task_start.estimated_total_seconds))
            (append_command_output log dr (toArgs node) st)
            ((parse_history_path st.stdout).or hist)).snapshots,
        toArgs node :: (runLoop toArgs dr n s e restNodes (index + 1) restTraces
          (est.set index (max (est.getD index 0)
            trace.task_start.estimated_total_seconds))
          (append_command_output log dr (toArgs node) st)
          ((parse_history_path st.stdout).or hist)).submitted_args,
        (runLoop toArgs dr n s e restNodes (index + 1) restTraces
          (est.set index (max (est.getD index 0)
            trace.task_start.estimated_total_seconds))
          (append_command_output log dr (toArgs node) st)
          ((parse_history_path st.stdout).or hist)).outcome⟩ := by
  rw [runLoop_cons, hterm]
  exact if_neg hgood

/-- The terminal-status stdouts of the first `k` steps, in run order. -/
def terminalStdouts (traces : List StepTrace) (k : Nat) : List String :=
  ((traces.take k).filterMap (fun tr => pollTerminal tr.polls)).map
    (fun st => st.stdout)

theorem runLoop_ok_history (toArgs : PipelineNode → List String) (dr : String)
    (n : Nat) (s e : Int) :
    ∀ (nodes : List PipelineNode) (index : Nat) (traces : List StepTrace)
      (est : List Rat) (log : List String) (hist : Option String) (c : String)
      (h : Option String),
    (runLoop toArgs dr n s e nodes index traces est log hist).outcome =
      .ok c h →
    h = ((terminalStdouts traces nodes.length).filterMap
      parse_history_path).getLast?.or hist := by
  intro nodes
  induction nodes with
  | nil =>
    intro index traces est log hist c h hok
    simp only [runLoop, RunExit.ok.injEq] at hok
    simp [terminalStdouts, hok.2.symm]
  | cons node restN ih =>
    intro index traces est log hist c h hok
    cases traces with
    | nil => cases show RunExit.stalled = RunExit.ok c h from hok
    | cons trace restT =>
      rcases hterm : pollTerminal trace.polls with _ | st
      · rw [runLoop_cons_stall toArgs dr n s e node restN index trace restT est
          log hist hterm] at hok
        cases show RunExit.stalled = RunExit.ok c h from hok
      · by_cases hfail : st.status ≠ "completed" ∨ st.exit_code ≠ some 0
        · rw [runLoop_cons_fail toArgs dr n s e node restN index trace restT est
            log hist st hterm hfail] at hok
          cases show RunExit.failed _ _ _ = RunExit.ok c h from hok
        · rw [runLoop_cons_ok toArgs dr n s e node restN index trace restT est
            log hist st hterm hfail] at hok
          have hrec := ih (index + 1) restT
            (est.set index (max (est.getD index 0)
              trace.task_start.estimated_total_seconds))
            (append_command_output log dr (toArgs node) st)
            ((parse_history_path st.stdout).or hist) c h hok
          have hlist : terminalStdouts (trace :: restT) (restN.length + 1) =
              st.stdout :: terminalStdouts restT restN.length := by
            simp [terminalStdouts, List.take, List.filterMap_cons, hterm]
          rw [List.length_cons, hlist, getLast?_filterMap_or]
          exact hrec

/-- C9: whenever the run finishes successfully, the returned history path is
the last value recorded across the steps in run order — each step records the
marker extracted from its terminal stdout when one is present and otherwise
leaves the previous value — and is `none` when no step ever emitted a marker
line. -/
theorem claim_C9_history_last_writer (toArgs : PipelineNode → List String)
    (data_root : String) (nodes : List PipelineNode) (s e : Int)
    (traces : List StepTrace) (c : String) (h : Option String)
    (hok : (runPipelineInBackground toArgs data_root nodes s e traces).outcome =
      .ok c h) :
    h = ((terminalStdouts traces nodes.length).filterMap
      parse_history_path).getLast? := by
  unfold runPipelineInBackground at hok
  by_cases hn : nodes.length = 0
  · rw [if_pos hn] at hok
    simp only [RunExit.ok.injEq] at hok
    rw [hn]
    simp [terminalStdouts, hok.2.symm]
  · rw [if_neg hn] at hok
    have := runLoop_ok_history toArgs data_root nodes.length s e nodes 0 traces
      (nodes.map (fun node => estimateNodeDurationSeconds node.type)) [] none
      c h hok
    simpa using this

def c9nodes : List PipelineNode :=
  [⟨"n1", .custom, "Step 1", 0, 0, []⟩, ⟨"n2", .custom, "Step 2", 0, 0, []⟩]

def c9status1 : CommandTaskStatus :=
  ⟨"t1", "completed", "forge", [], some 0, "history_path=/a/h1.json", "", 1, 1, 0, 100⟩

def c9status2 : CommandTaskStatus :=
  ⟨"t2", "completed", "forge", [], some 0, "history_path=/b/h2.json", "", 1, 1, 0, 100⟩

def c9traces : List StepTrace :=
  [⟨⟨"t1", 5⟩, [(c9status1, 1000)]⟩, ⟨⟨"t2", 7⟩, [(c9status2, 2000)]⟩]

def c9toArgs : PipelineNode → List String := fun _ => ["run"]

theorem claim_C9_witness :
    (some "/b/h2.json" : Option String) =
      ((terminalStdouts c9traces c9nodes.length).filterMap
        parse_history_path).getLast? :=
  claim_C9_history_last_writer c9toArgs "root" c9nodes 0 9000 c9traces
    ("$ forge --data-root root run\nhistory_path=/a/h1.json\n" ++
      "$ forge --data-root root run\nhistory_path=/b/h2.json\n")
    (some "/b/h2.json") (by decide)

theorem runLoop_cons_ok_outcome (toArgs : PipelineNode → List String)
    (dr : String) (n : Nat) (s e : Int) (node : PipelineNode)
    (restNodes : List PipelineNode) (index : Nat) (trace : StepTrace)
    (restTraces : List StepTrace) (est : List Rat) (log : List String)
    (hist : Option String) (st : CommandTaskStatus)
    (hterm : pollTerminal trace.polls = some st)
    (hgood : ¬(st.status ≠ "completed" ∨ st.exit_code ≠ some 0)) :
    (runLoop toArgs dr n s e (node :: restNodes) index (trace :: restTraces)
        est log hist).outcome =
      (runLoop toArgs dr n s e restNodes (index + 1) restTraces
        (est.set index (max (est.getD index 0)
          trace.task_start.estimated_total_seconds))
        (append_command_output log dr (toArgs node) st)
        ((parse_history_path st.stdout).or hist)).outcome := by
  rw [runLoop_cons_ok toArgs dr n s e node restNodes index trace restTraces est
    log hist st hterm hgood]

theorem runLoop_cons_ok_submitted (toArgs : PipelineNode → List String)
    (dr : String) (n : Nat) (s e : Int) (node : PipelineNode)
    (restNodes : List PipelineNode) (index : Nat) (trace : StepTrace)
    (restTraces : List StepTrace) (est : List Rat) (log : List String)
    (hist : Option String) (st : CommandTaskStatus)
    (hterm : pollTerminal trace.polls = some st)
    (hgood : ¬(st.status ≠ "completed" ∨ st.exit_code ≠ some 0)) :
    (runLoop toArgs dr n s e (node :: restNodes) index (trace :: restTraces)
        est log hist).submitted_args =
      toArgs node :: (runLoop toArgs dr n s e restNodes (index + 1) restTraces
        (est.set index (max (est.getD index 0)
          trace.task_start.estimated_total_seconds))
        (append_command_output log dr (toArgs node) st)
        ((parse_history_path st.stdout).or hist)).submitted_args := by
  rw [runLoop_cons_ok toArgs dr n s e node restNodes index trace restTraces est
    log hist st hterm hgood]

theorem runLoop_cons_ok_snapshots (toArgs : PipelineNode → List String)
    (dr : String) (n : Nat) (s e : Int) (node : PipelineNode)
    (restNodes : List PipelineNode) (index : Nat) (trace : StepTrace)
    (restTraces : List StepTrace) (est : List Rat) (log : List String)
    (hist : Option String) (st : CommandTaskStatus)
    (hterm : pollTerminal trace.polls = some st)
    (hgood : ¬(st.status ≠ "completed" ∨ st.exit_code ≠ some 0)) :
    (runLoop toArgs dr n s e (node :: restNodes) index (trace :: restTraces)
        est log hist).snapshots =
      (wait_for_task index n node.title
          (est.set index (max (est.getD index 0)
            trace.task_start.estimated_total_seconds)) s trace.polls).1 ++
        (runLoop toArgs dr n s e restNodes (index + 1) restTraces
          (est.set index (max (est.getD index 0)
            trace.task_start.estimated_total_seconds))
          (append_command_output log dr (toArgs node) st)
          ((parse_history_path st.stdout).or hist)).snapshots := by
  rw [runLoop_cons_ok toArgs dr n s e node restNodes index trace restTraces est
    log hist st hterm hgood]

theorem runLoop_failure (toArgs : PipelineNode → List String) (dr : String)
    (n : Nat) (s e : Int) (st : CommandTaskStatus) :
    ∀ (i : Nat) (nodes : List PipelineNode) (index : Nat)
      (traces : List StepTrace) (est : List Rat) (log : List String)
      (hist : Option String),
    i < nodes.length → i < traces.length →
    (∀ j, j < i → stepGood (traces.getD j defaultStepTrace) = true) →
    pollTerminal (traces.getD i defaultStepTrace).polls = some st →
    (st.status ≠ "completed" ∨ st.exit_code ≠ some 0) →
    ∃ logBefore histBefore,
      (runLoop toArgs dr n s e nodes index traces est log hist).outcome =
        .failed ("Command failed: " ++
            String.intercalate " " (toArgs (nodes.getD i defaultPipelineNode)))
          (append_command_output logBefore dr
            (toArgs (nodes.getD i defaultPipelineNode)) st)
          ((parse_history_path st.stdout).or histBefore) ∧
      (runLoop toArgs dr n s e nodes index
          traces est log hist).submitted_args.length = i + 1 := by
  intro i
  induction i with
  | zero =>
    intro nodes index traces est log hist hi htr hgood hterm hbad
    cases nodes with
    | nil => exact absurd hi (by simp)
    | cons node restN =>
      cases traces with
      | nil => exact absurd htr (by simp)
      | cons trace restT =>
        have hterm0 : pollTerminal trace.polls = some st := by simpa using hterm
        have heq := runLoop_cons_fail toArgs dr n s e node restN index trace
          restT est log hist st hterm0 hbad
        exact ⟨log, hist, by rw [heq]; rfl, by rw [heq]; rfl⟩
  | succ i ih =>
    intro nodes index traces est log hist hi htr hgood hterm hbad
    cases nodes with
    | nil => exact absurd hi (by simp)
    | cons node restN =>
      cases traces with
      | nil => exact absurd htr (by simp)
      | cons trace restT =>
        have hg0 : stepGood trace = true := by
          simpa using hgood 0 (Nat.succ_pos i)
        unfold stepGood at hg0
        rcases ht0 : pollTerminal trace.polls with _ | st0
        · rw [ht0] at hg0
          cases hg0
        · rw [ht0] at hg0
          simp only [Bool.and_eq_true, beq_iff_eq] at hg0
          have hok : ¬(st0.status ≠ "completed" ∨ st0.exit_code ≠ some 0) := by
            push_neg
            exact ⟨hg0.1, hg0.2⟩
          have hi' : i < restN.length := by
            simpa [Nat.succ_lt_succ_iff] using hi
          have htr' : i < restT.length := by
            simpa [Nat.succ_lt_succ_iff] using htr
          have hgood' : ∀ j, j < i →
              stepGood (restT.getD j defaultStepTrace) = true := by
            intro j hj
            simpa using hgood (j + 1) (Nat.succ_lt_succ hj)
          have hterm' : pollTerminal (restT.getD i defaultStepTrace).polls =
              some st := by simpa using hterm
          obtain ⟨lb, hb, h1, h2⟩ := ih restN (index + 1) restT
            (est.set index (max (est.getD index 0)
              trace.task_start.estimated_total_seconds))
            (append_command_output log dr (toArgs node) st0)
            ((parse_history_path st0.stdout).or hist) hi' htr' hgood' hterm' hbad
          refine ⟨lb, hb, ?_, ?_⟩
          · rw [runLoop_cons_ok_outcome toArgs dr n s e node restN index trace
              restT est log hist st0 ht0 hok]
            simpa [List.getD_cons_succ] using h1
          · rw [runLoop_cons_ok_submitted toArgs dr n s e node restN index trace
              restT est log hist st0 ht0 hok, List.length_cons, h2]

/-- Substring occurrence on character lists (executable). -/
def listHasSub (needle : List Char) : List Char → Bool
  | [] => needle.isEmpty
  | c :: rest => needle.isPrefixOf (c :: rest) || listHasSub needle rest

def c7nodes : List PipelineNode := [⟨"n1", .train, "Train", 0, 0, []⟩]

def c7failStatus : CommandTaskStatus :=
  ⟨"t1", "failed", "forge", ["train"], some 1, "", "boom", 1, 1, 0, 50⟩

def c7traces : List StepTrace := [⟨⟨"t1", 3⟩, [(c7failStatus, 1000)]⟩]

def c7toArgs : PipelineNode → List String := fun _ => ["train"]

/-- C7 counterexample: the step's terminal status captured stderr "boom" and
the failure aborts the run with the stderr already appended to the log, but
the thrown message is exactly "Command failed: " plus the command text — the
payload does not carry the captured stderr anywhere. -/
theorem claim_C7_counterexample :
    (runPipelineInBackground c7toArgs "root" c7nodes 0 0 c7traces).outcome =
      RunExit.failed "Command failed: train"
        ["$ forge --data-root root train", "boom"] none ∧
    (pollTerminal (c7traces.getD 0 defaultStepTrace).polls).map
      (fun st => st.stderr) = some "boom" ∧
    listHasSub "boom".data "Command failed: train".data = false ∧
    listHasSub "boom".data
      (String.intercalate "\n" ["$ forge --data-root root train", "boom"]).data =
      true := by
  refine ⟨by decide, by decide, by decide, by decide⟩

/-- C7 (amended): when the first i steps complete successfully and step i's
terminal status is not "completed" or has a non-zero exit code, the run fails
with the message "Command failed: " plus the invoked command text (the payload
carries the command text but not the captured stderr); the failing step's
command line, trimmed stdout, and trimmed stderr have already been appended to
the console log, its stdout already scanned for a history marker, and exactly
i+1 steps were ever submitted. -/
theorem claim_C7_step_failure (toArgs : PipelineNode → List String)
    (data_root : String) (nodes : List PipelineNode) (s e : Int)
    (traces : List StepTrace) (st : CommandTaskStatus) (i : Nat)
    (hi : i < nodes.length) (htr : i < traces.length)
    (hgood : ∀ j, j < i → stepGood (traces.getD j defaultStepTrace) = true)
    (hterm : pollTerminal (traces.getD i defaultStepTrace).polls = some st)
    (hbad : st.status ≠ "completed" ∨ st.exit_code ≠ some 0) :
    ∃ logBefore histBefore,
      (runPipelineInBackground toArgs data_root nodes s e traces).outcome =
        .failed ("Command failed: " ++ String.intercalate " "
            (toArgs (nodes.getD i defaultPipelineNode)))
          (append_command_output logBefore data_root
            (toArgs (nodes.getD i defaultPipelineNode)) st)
          ((parse_history_path st.stdout).or histBefore) ∧
      (runPipelineInBackground toArgs data_root nodes s e
          traces).submitted_args.length = i + 1 := by
  unfold runPipelineInBackground
  rw [if_neg (by omega : ¬nodes.length = 0)]
  exact runLoop_failure toArgs data_root nodes.length s e st i nodes 0 traces
    (nodes.map (fun node => estimateNodeDurationSeconds node.type)) [] none
    hi htr hgood hterm hbad

def c7wNodes : List PipelineNode :=
  [⟨"a", .ingest, "A", 0, 0, []⟩, ⟨"b", .filter, "B", 0, 0, []⟩,
    ⟨"c", .train, "C", 0, 0, []⟩]

def c7wGood : CommandTaskStatus :=
  ⟨"t1", "completed", "forge", [], some 0, "", "", 1, 1, 0, 100⟩

def c7wBad : CommandTaskStatus :=
  ⟨"t2", "failed", "forge", [], some 1, "", "err", 1, 1, 0, 50⟩

def c7wTraces : List StepTrace :=
  [⟨⟨"t1", 1⟩, [(c7wGood, 100)]⟩, ⟨⟨"t2", 2⟩, [(c7wBad, 200)]⟩,
    ⟨⟨"t3", 3⟩, [(c7wGood, 300)]⟩]

def c7wToArgs : PipelineNode → List String := fun nd => [nd.id]

theorem claim_C7_witness :
    (runPipelineInBackground c7wToArgs "root" c7wNodes 0 0
      c7wTraces).submitted_args.length = 2 := by
  obtain ⟨lb, hb, hout, hsub⟩ := claim_C7_step_failure c7wToArgs "root" c7wNodes
    0 0 c7wTraces c7wBad 1 (by decide) (by decide) (by decide) (by decide)
    (by decide)
  exact hsub

/-- The mutable `estimated_step_seconds` array as it stands after the first
`k` steps have been submitted (lines 47-49 and 58-61): static per-type
defaults, overwritten in place at each submitted index by the max of the
current entry and the launcher's dynamic estimate. -/
def estimatesBefore (nodes : List PipelineNode) (traces : List StepTrace)
    (k : Nat) : List Rat :=
  (List.range k).foldl
    (fun est j => est.set j (max (est.getD j 0)
      ((traces.getD j defaultStepTrace).task_start.estimated_total_seconds)))
    (nodes.map (fun node => estimateNodeDurationSeconds node.type))

/-- The snapshots emitted during step `i`: one per consumed poll tick,
computed from the estimate array as updated through step `i`'s submission. -/
def stepSnapshots (nodes : List PipelineNode) (traces : List StepTrace)
    (started_at_ms : Int) (i : Nat) : List PipelineProgressSnapshot :=
  (ticksUpToTerminal (traces.getD i defaultStepTrace).polls).map
    (fun p => emit_progress i nodes.length
      (nodes.getD i defaultPipelineNode).title
      (estimatesBefore nodes traces (i + 1)) started_at_ms p.2 p.1)

theorem estimatesBefore_succ (nodes : List PipelineNode)
    (traces : List StepTrace) (k : Nat) :
    estimatesBefore nodes traces (k + 1) =
      (estimatesBefore nodes traces k).set k
        (max ((estimatesBefore nodes traces k).getD k 0)
          ((traces.getD k defaultStepTrace).task_start.estimated_total_seconds)) := by
  unfold estimatesBefore
  rw [List.range_succ, List.foldl_append]
  rfl

theorem drop_set_of_lt {α : Type} :
    ∀ (l : List α) (i : Nat) (v : α) (m : Nat), i < m →
      (l.set i v).drop m = l.drop m := by
  intro l
  induction l with
  | nil => intro i v m _; simp
  | cons a t ih =>
    intro i v m him
    cases i with
    | zero =>
      cases m with
      | zero => omega
      | succ m' => simp [List.set]
    | succ i' =>
      cases m with
      | zero => omega
      | succ m' =>
        simp only [List.set, List.drop_succ_cons]
        exact ih i' v m' (by omega)

theorem estimatesBefore_drop (nodes : List PipelineNode)
    (traces : List StepTrace) :
    ∀ (k m : Nat), k ≤ m →
      (estimatesBefore nodes traces k).drop m =
        (nodes.map (fun node => estimateNodeDurationSeconds node.type)).drop m := by
  intro k
  induction k with
  | zero => intro m _; rfl
  | succ k' ih =>
    intro m hkm
    rw [estimatesBefore_succ, drop_set_of_lt _ _ _ _ (by omega)]
    exact ih m (by omega)

theorem runLoop_snapshots_decompose (toArgs : PipelineNode → List String)
    (dr : String) (s e : Int) (nodes : List PipelineNode)
    (traces : List StepTrace) :
    ∀ (i index : Nat) (log : List String) (hist : Option String),
    index + i < nodes.length → index + i < traces.length →
    (∀ j, j < i → stepGood (traces.getD (index + j) defaultStepTrace) = true) →
    ∃ pre post,
      (runLoop toArgs dr nodes.length s e (nodes.drop index) index
          (traces.drop index) (estimatesBefore nodes traces index) log
          hist).snapshots =
        pre ++ (ticksUpToTerminal
            (traces.getD (index + i) defaultStepTrace).polls).map
          (fun p => emit_progress (index + i) nodes.length
            (nodes.getD (index + i) defaultPipelineNode).title
            (estimatesBefore nodes traces (index + i + 1)) s p.2 p.1) ++ post := by
  intro i
  induction i with
  | zero =>
    intro index log hist hi htr _
    simp only [Nat.add_zero] at hi htr ⊢
    have hnodes : nodes.drop index =
        nodes.getD index defaultPipelineNode :: nodes.drop (index + 1) := by
      rw [List.drop_eq_getElem_cons hi,
        List.getD_eq_getElem nodes defaultPipelineNode hi]
    have htraces : traces.drop index =
        traces.getD index defaultStepTrace :: traces.drop (index + 1) := by
      rw [List.drop_eq_getElem_cons htr,
        List.getD_eq_getElem traces defaultStepTrace htr]
    rw [hnodes, htraces]
    set node := nodes.getD index defaultPipelineNode with hnode
    set trace := traces.getD index defaultStepTrace with htrace
    have hest2 : (estimatesBefore nodes traces index).set index
        (max ((estimatesBefore nodes traces index).getD index 0)
          trace.task_start.estimated_total_seconds) =
        estimatesBefore nodes traces (index + 1) :=
      (estimatesBefore_succ nodes traces index).symm
    rcases hterm : pollTerminal trace.polls with _ | st
    · refine ⟨[], [], ?_⟩
      rw [runLoop_cons_stall toArgs dr nodes.length s e node _ index trace _ _
        log hist hterm]
      simp only [wait_for_task_fst, hest2]
      simp
    · by_cases hfail : st.status ≠ "completed" ∨ st.exit_code ≠ some 0
      · refine ⟨[], [], ?_⟩
        rw [runLoop_cons_fail toArgs dr nodes.length s e node _ index trace _ _
          log hist st hterm hfail]
        simp only [wait_for_task_fst, hest2]
        simp
      · refine ⟨[], (runLoop toArgs dr nodes.length s e (nodes.drop (index + 1))
          (index + 1) (traces.drop (index + 1))
          (estimatesBefore nodes traces (index + 1))
          (append_command_output log dr (toArgs node) st)
          ((parse_history_path st.stdout).or hist)).snapshots, ?_⟩
        rw [runLoop_cons_ok_snapshots toArgs dr nodes.length s e node _ index
          trace _ _ log hist st hterm hfail]
        simp only [wait_for_task_fst, hest2]
        simp
  | succ i ih =>
    intro index log hist hi htr hgood
    have hi0 : index < nodes.length := by omega
    have htr0 : index < traces.length := by omega
    have hg0 : stepGood (traces.getD index defaultStepTrace) = true := by
      have := hgood 0 (Nat.succ_pos i)
      simpa using this
    have hnodes : nodes.drop index =
        nodes.getD index defaultPipelineNode :: nodes.drop (index + 1) := by
      rw [List.drop_eq_getElem_cons hi0,
        List.getD_eq_getElem nodes defaultPipelineNode hi0]
    have htraces : traces.drop index =
        traces.getD index defaultStepTrace :: traces.drop (index + 1) := by
      rw [List.drop_eq_getElem_cons htr0,
        List.getD_eq_getElem traces defaultStepTrace htr0]
    rw [hnodes, htraces]
    set node := nodes.getD index defaultPipelineNode with hnode
    set trace := traces.getD index defaultStepTrace with htrace
    have hest2 : (estimatesBefore nodes traces index).set index
        (max ((estimatesBefore nodes traces index).getD index 0)
          trace.task_start.estimated_total_seconds) =
        estimatesBefore nodes traces (index + 1) :=
      (estimatesBefore_succ nodes traces index).symm
    unfold stepGood at hg0
    rcases ht0 : pollTerminal trace.polls with _ | st0
    · rw [ht0] at hg0
      cases hg0
    · rw [ht0] at hg0
      simp only [Bool.and_eq_true, beq_iff_eq] at hg0
      have hok : ¬(st0.status ≠ "completed" ∨ st0.exit_code ≠ some 0) := by
        push_neg
        exact ⟨hg0.1, hg0.2⟩
      have hgood' : ∀ j, j < i →
          stepGood (traces.getD (index + 1 + j) defaultStepTrace) = true := by
        intro j hj
        have hx : index + (j + 1) = index + 1 + j := by omega
        have := hgood (j + 1) (Nat.succ_lt_succ hj)
        rw [hx] at this
        exact this
      obtain ⟨pre, post, hdec⟩ := ih (index + 1)
        (append_command_output log dr (toArgs node) st0)
        ((parse_history_path st0.stdout).or hist) (by omega) (by omega) hgood'
      have hidx : index + 1 + i = index + (i + 1) := by omega
      simp only [hidx] at hdec
      refine ⟨(wait_for_task index nodes.length node.title
        (estimatesBefore nodes traces (index + 1)) s trace.polls).1 ++ pre,
        post, ?_⟩
      rw [runLoop_cons_ok_snapshots toArgs dr nodes.length s e node _ index
        trace _ _ log hist st0 ht0 hok]
      simp only [hest2]
      rw [hdec]
      simp [List.append_assoc]

/-- C6: once execution reaches step i (the first i steps completed
successfully), the run delivers step i's snapshots as a contiguous block, one
per consumed poll tick; each such snapshot has current_step_percent equal to
the polled progress percent while the status is "running" and 100 otherwise,
overall_percent = clamp(((i + f/100) / n) * 100, 0, 100), and
pipeline_remaining_seconds = the polled status's remaining seconds plus the
sum of the static per-type estimates of the not-yet-submitted steps i+1..n-1
(the in-place estimate updates at submitted indices ≤ i never touch that
suffix). -/
theorem claim_C6_progress_formulas (toArgs : PipelineNode → List String)
    (data_root : String) (nodes : List PipelineNode) (s e : Int)
    (traces : List StepTrace) (i : Nat)
    (hi : i < nodes.length) (htr : i < traces.length)
    (hgood : ∀ j, j < i → stepGood (traces.getD j defaultStepTrace) = true) :
    (∃ pre post,
      (runPipelineInBackground toArgs data_root nodes s e traces).snapshots =
        pre ++ stepSnapshots nodes traces s i ++ post) ∧
    ∀ snap ∈ stepSnapshots nodes traces s i,
      ∃ p ∈ ticksUpToTerminal (traces.getD i defaultStepTrace).polls,
        snap.current_step_percent =
          (if p.1.status = "running" then p.1.progress_percent else 100) ∧
        snap.overall_percent =
          clamp ((((i : Nat) : Rat) + snap.current_step_percent / 100) /
            ((nodes.length : Nat) : Rat) * 100) 0 100 ∧
        snap.pipeline_remaining_seconds =
          p.1.remaining_seconds + sum_remaining_estimate
            (nodes.map (fun node => estimateNodeDurationSeconds node.type))
            (i + 1) := by
  constructor
  · unfold runPipelineInBackground
    rw [if_neg (by omega : ¬nodes.length = 0)]
    have hgood0 : ∀ j, j < i →
        stepGood (traces.getD (0 + j) defaultStepTrace) = true := by
      intro j hj
      simpa using hgood j hj
    have hmain := runLoop_snapshots_decompose toArgs data_root s e nodes traces
      i 0 [] none (by omega) (by omega) hgood0
    simp only [Nat.zero_add, List.drop_zero] at hmain
    obtain ⟨pre, post, hdec⟩ := hmain
    refine ⟨pre, post, ?_⟩
    rw [show estimatesBefore nodes traces 0 =
      nodes.map (fun node => estimateNodeDurationSeconds node.type) from rfl]
      at hdec
    exact hdec
  · intro snap hsnap
    obtain ⟨p, hp, hsnapeq⟩ := List.mem_map.1 hsnap
    refine ⟨p, hp, ?_, ?_, ?_⟩
    · rw [← hsnapeq]
      rfl
    · rw [← hsnapeq]
      rfl
    · rw [← hsnapeq]
      show p.1.remaining_seconds +
          sum_remaining_estimate (estimatesBefore nodes traces (i + 1)) (i + 1) =
        p.1.remaining_seconds + sum_remaining_estimate
          (nodes.map (fun node => estimateNodeDurationSeconds node.type)) (i + 1)
      unfold sum_remaining_estimate
      rw [estimatesBefore_drop nodes traces (i + 1) (i + 1) (le_refl _)]

def c6nodes : List PipelineNode :=
  [⟨"x", .train, "X", 0, 0, []⟩, ⟨"y", .filter, "Y", 0, 0, []⟩]

def c6run1 : CommandTaskStatus :=
  ⟨"t1", "running", "forge", [], none, "", "", 5, 300, 295, 10⟩

def c6done1 : CommandTaskStatus :=
  ⟨"t1", "completed", "forge", [], some 0, "", "", 300, 300, 0, 100⟩

def c6traces : List StepTrace :=
  [⟨⟨"t1", 300⟩, [(c6run1, 1000), (c6done1, 2000)]⟩]

def c6toArgs : PipelineNode → List String := fun _ => []

def c6snap : PipelineProgressSnapshot :=
  ⟨true, 5, 1, 325, "1/2: X", 10, 5, 295⟩

theorem claim_C6_witness :
    c6snap ∈
      (runPipelineInBackground c6toArgs "root" c6nodes 0 2000
        c6traces).snapshots := by
  obtain ⟨pre, post, hdec⟩ := (claim_C6_progress_formulas c6toArgs "root"
    c6nodes 0 2000 c6traces 0 (by decide) (by decide) (by decide)).1
  rw [hdec]
  refine List.mem_append.2 (Or.inl (List.mem_append.2 (Or.inr ?_)))
  show c6snap ∈ stepSnapshots c6nodes c6traces 0 0
  have hticks : ticksUpToTerminal (c6traces.getD 0 defaultStepTrace).polls =
      [(c6run1, 1000), (c6done1, 2000)] := by decide
  unfold stepSnapshots
  rw [hticks, List.map_cons]
  refine List.mem_cons.2 (Or.inl ?_)
  show c6snap = emit_progress 0 c6nodes.length
    (c6nodes.getD 0 defaultPipelineNode).title (estimatesBefore c6nodes c6traces 1)
    0 1000 c6run1
  have hest : estimatesBefore c6nodes c6traces 1 = [300, 30] := by
    unfold estimatesBefore
    simp [c6nodes, c6traces, estimateNodeDurationSeconds, defaultStepTrace,
      List.range_succ]
    norm_num
  rw [hest]
  unfold emit_progress c6snap
  simp only [c6nodes, c6run1, clamp, seconds_since, sum_remaining_estimate]
  norm_num
  decide
